import Mathlib

/-!
Verification development for the go-lenia computation engine
(`src/utils/computation.go` of the repository).

The Go source works with `float64` matrices (gonum `mat.Dense`).  We embed
the numeric computations over `ℝ`; where a claim is genuinely about IEEE-754
special values (NaN / ±Inf) we additionally embed the relevant scalar
operations over an explicit extended type `FP`.  Matrices are embedded as
total functions `ℕ → ℕ → ℝ` together with explicitly carried dimensions;
gonum operations that panic (out-of-range `Set`/`At`, `rand.Intn` with a
non-positive bound, negative dimensions) are embedded as `Option`-returning
functions, `none` marking the panic.
-/

namespace Lenia

open scoped BigOperators Classical

noncomputable section

/-! ### Small helpers from the source -/

/-- Go source `mod(a, b)`: positive modulo `(a%b + b) % b`.
Go's `%` truncates towards zero, which is `Int.emod`... Go `a % b` has the
sign of `a` (`Int.tmod` in Lean); the composite `(a%b + b) % b` yields the
canonical representative in `[0, b)` for `b > 0`, for either convention. -/
def goMod (a b : ℤ) : ℤ :=
  (Int.tmod a b + b).tmod b

/-- Go conversion `int(x)` of a `float64`: truncation towards zero. -/
def trunc (x : ℝ) : ℤ :=
  if 0 ≤ x then ⌊x⌋ else ⌈x⌉

/-- Go `math.Mod(x, y)`: the floating-point remainder, with the sign of `x`;
`math.Mod(x, y) = x - trunc(x/y)*y`. -/
def goFMod (x y : ℝ) : ℝ :=
  x - (trunc (x / y) : ℝ) * y

/-- Source `Clip(n, min, max)` over the idealised reals:
restrict a value between two bounds. -/
def Clip (n mn mx : ℝ) : ℝ :=
  if n < mn then mn else if n > mx then mx else n

theorem Clip_mem_Icc (n mn mx : ℝ) (h : mn ≤ mx) : Clip n mn mx ∈ Set.Icc mn mx := by
  unfold Clip
  split_ifs with h1 h2
  · exact ⟨le_refl mn, h⟩
  · exact ⟨h, le_refl mx⟩
  · exact ⟨le_of_not_lt h1, le_of_not_lt h2⟩

/-! ### An IEEE-754-style scalar model

The claims about NaN propagation and division by a zero kernel sum are about
`float64` special values, which `ℝ` cannot express.  `FP` models a `float64`
as either NaN, ±infinity, or a finite real (we do not model overflow of
finite arithmetic or negative zero; no reachable value in the claims under
study needs them). -/

inductive FP where
  | nan : FP
  | inf : FP
  | ninf : FP
  | fin : ℝ → FP
deriving DecidableEq

/-- IEEE `<` comparison: any comparison involving NaN is false. -/
def FP.lt : FP → FP → Prop
  | .nan, _ => False
  | _, .nan => False
  | .ninf, .ninf => False
  | .ninf, _ => True
  | .inf, _ => False
  | .fin _, .inf => True
  | .fin _, .ninf => False
  | .fin x, .fin y => x < y

/-- IEEE multiplication on the modelled values: NaN is absorbing,
`0 * ±Inf = NaN`, infinities multiply by sign. -/
def FP.mul : FP → FP → FP
  | .nan, _ => .nan
  | _, .nan => .nan
  | .inf, .inf => .inf
  | .inf, .ninf => .ninf
  | .ninf, .inf => .ninf
  | .ninf, .ninf => .inf
  | .inf, .fin x => if x = 0 then .nan else if 0 < x then .inf else .ninf
  | .fin x, .inf => if x = 0 then .nan else if 0 < x then .inf else .ninf
  | .ninf, .fin x => if x = 0 then .nan else if 0 < x then .ninf else .inf
  | .fin x, .ninf => if x = 0 then .nan else if 0 < x then .ninf else .inf
  | .fin x, .fin y => .fin (x * y)

/-- IEEE division on the modelled values: a nonzero finite value divided by
(positive) zero gives ±Inf, `0/0 = NaN`, `Inf/Inf = NaN`. -/
def FP.div : FP → FP → FP
  | .nan, _ => .nan
  | _, .nan => .nan
  | .inf, .inf => .nan
  | .inf, .ninf => .nan
  | .ninf, .inf => .nan
  | .ninf, .ninf => .nan
  | .inf, .fin x => if 0 ≤ x then .inf else .ninf
  | .ninf, .fin x => if 0 ≤ x then .ninf else .inf
  | .fin _, .inf => .fin 0
  | .fin _, .ninf => .fin 0
  | .fin x, .fin y =>
      if y = 0 then (if x = 0 then .nan else if 0 < x then .inf else .ninf)
      else .fin (x / y)

/-- Source `Clip` under IEEE-754 comparison semantics: `n > max` is `max < n`,
and both guards are false when `n` is NaN. -/
def ClipF (n mn mx : FP) : FP :=
  if n.lt mn then mn else if mx.lt n then mx else n

/-- A modelled float that is a finite real in `[0, 1]`. -/
def FP.inUnit : FP → Prop
  | .fin x => 0 ≤ x ∧ x ≤ 1
  | _ => False

/-! ### Matrix writes

A gonum `mat.Dense` of dimensions `r × c` is embedded as a total function
`ℕ → ℕ → ℝ` (entries outside the dimensions are irrelevant and never read
by the embedded operations).  `Dense.Set(i, j, v)` panics when the indices
are out of range; we embed a checked write returning `Option`, and loops of
writes as a fold over the list of writes in source order. -/

/-- One checked write `m.Set(i, j, v)` on an `r × c` matrix;
`none` is gonum's out-of-range panic. -/
def setCellChecked (r c : ℕ) (g : ℕ → ℕ → ℝ) (i j : ℤ) (v : ℝ) :
    Option (ℕ → ℕ → ℝ) :=
  if 0 ≤ i ∧ i < (r : ℤ) ∧ 0 ≤ j ∧ j < (c : ℤ) then
    some (fun a b => if (a : ℤ) = i ∧ (b : ℤ) = j then v else g a b)
  else none

/-- A loop of checked writes `(i, j, v)`, performed in list order. -/
def applyWrites (r c : ℕ) : (ℕ → ℕ → ℝ) → List (ℤ × ℤ × ℝ) → Option (ℕ → ℕ → ℝ)
  | g, [] => some g
  | g, t :: ts => do
      let g' ← setCellChecked r c g t.1 t.2.1 t.2.2
      applyWrites r c g' ts

theorem applyWrites_total (r c : ℕ) (l : List (ℤ × ℤ × ℝ)) :
    ∀ g : ℕ → ℕ → ℝ,
      (∀ t ∈ l, 0 ≤ t.1 ∧ t.1 < (r : ℤ) ∧ 0 ≤ t.2.1 ∧ t.2.1 < (c : ℤ)) →
      ∃ g', applyWrites r c g l = some g' := by
  induction l with
  | nil => intro g _; exact ⟨g, rfl⟩
  | cons t ts ih =>
    intro g hb
    have ht := hb t (List.mem_cons_self t ts)
    obtain ⟨g', hg'⟩ := ih (fun a b => if (a : ℤ) = t.1 ∧ (b : ℤ) = t.2.1 then t.2.2 else g a b)
      (fun u hu => hb u (List.mem_cons_of_mem t hu))
    refine ⟨g', ?_⟩
    simp only [applyWrites, setCellChecked, if_pos ht, Option.bind_eq_bind,
      Option.some_bind]
    exact hg'

theorem applyWrites_none (r c : ℕ) (l : List (ℤ × ℤ × ℝ)) :
    ∀ g : ℕ → ℕ → ℝ,
      (∃ t ∈ l, ¬(0 ≤ t.1 ∧ t.1 < (r : ℤ) ∧ 0 ≤ t.2.1 ∧ t.2.1 < (c : ℤ))) →
      applyWrites r c g l = none := by
  induction l with
  | nil => intro g h; obtain ⟨t, ht, _⟩ := h; exact absurd ht (List.not_mem_nil t)
  | cons u us ih =>
    intro g h
    obtain ⟨t, ht, hbad⟩ := h
    simp only [applyWrites, setCellChecked, Option.bind_eq_bind]
    rcases List.mem_cons.mp ht with rfl | hts
    · rw [if_neg hbad]
      rfl
    · split_ifs with hok
      · rw [Option.some_bind]
        exact ih _ ⟨t, hts, hbad⟩
      · rfl

theorem applyWrites_old_or_written (r c : ℕ) (l : List (ℤ × ℤ × ℝ)) :
    ∀ (g g' : ℕ → ℕ → ℝ), applyWrites r c g l = some g' →
      ∀ a b, g' a b = g a b ∨ ∃ t ∈ l, g' a b = t.2.2 := by
  induction l with
  | nil =>
    intro g g' h a b
    simp only [applyWrites, Option.some.injEq] at h
    exact Or.inl (h ▸ rfl)
  | cons t ts ih =>
    intro g g' h a b
    simp only [applyWrites, setCellChecked, Option.bind_eq_bind] at h
    split_ifs at h with hbnd
    · simp only [Option.some_bind] at h
      rcases ih _ g' h a b with hold | ⟨u, hu, hv⟩
      · by_cases hab : (a : ℤ) = t.1 ∧ (b : ℤ) = t.2.1
        · exact Or.inr ⟨t, List.mem_cons_self t ts, by rw [hold, if_pos hab]⟩
        · exact Or.inl (by rw [hold, if_neg hab])
      · exact Or.inr ⟨u, List.mem_cons_of_mem t hu, hv⟩
    · simp at h

theorem applyWrites_get_of_not_mem (r c : ℕ) (l : List (ℤ × ℤ × ℝ)) :
    ∀ (g g' : ℕ → ℕ → ℝ), applyWrites r c g l = some g' →
      ∀ a b : ℕ, (∀ t ∈ l, ¬((a : ℤ) = t.1 ∧ (b : ℤ) = t.2.1)) →
      g' a b = g a b := by
  induction l with
  | nil =>
    intro g g' h a b _
    simp only [applyWrites, Option.some.injEq] at h
    exact h ▸ rfl
  | cons t ts ih =>
    intro g g' h a b hnm
    simp only [applyWrites, setCellChecked, Option.bind_eq_bind] at h
    split_ifs at h with hbnd
    · simp only [Option.some_bind] at h
      have := ih _ g' h a b (fun u hu => hnm u (List.mem_cons_of_mem t hu))
      rw [this, if_neg (hnm t (List.mem_cons_self t ts))]
    · simp at h

theorem applyWrites_get_of_mem (r c : ℕ) (l : List (ℤ × ℤ × ℝ)) :
    ∀ (g g' : ℕ → ℕ → ℝ), applyWrites r c g l = some g' →
      (l.map fun t => (t.1, t.2.1)).Nodup →
      ∀ t ∈ l, ∀ a b : ℕ, (a : ℤ) = t.1 → (b : ℤ) = t.2.1 →
      g' a b = t.2.2 := by
  induction l with
  | nil => intro g g' _ _ t ht; exact absurd ht (List.not_mem_nil t)
  | cons u us ih =>
    intro g g' h hnd t ht a b ha hb
    simp only [List.map_cons, List.nodup_cons, List.mem_map] at hnd
    simp only [applyWrites, setCellChecked, Option.bind_eq_bind] at h
    split_ifs at h with hbnd
    · simp only [Option.some_bind] at h
      rcases List.mem_cons.mp ht with rfl | hts
      · have hne : ∀ s ∈ us, ¬((a : ℤ) = s.1 ∧ (b : ℤ) = s.2.1) := by
          intro s hs hc
          exact hnd.1 ⟨s, hs, by
            have h1 : s.1 = t.1 := by rw [← hc.1, ha]
            have h2 : s.2.1 = t.2.1 := by rw [← hc.2, hb]
            rw [h1, h2]⟩
        have := applyWrites_get_of_not_mem r c us _ g' h a b hne
        rw [this, if_pos ⟨ha, hb⟩]
      · exact ih _ g' h hnd.2 t hts a b ha hb
    · simp at h

/-- A doubly nested write loop (outer index `a < n`, inner index `b < m`),
in source (row-major) order. -/
def gridWrites (n m : ℕ) (f : ℕ → ℕ → ℤ × ℤ × ℝ) : List (ℤ × ℤ × ℝ) :=
  (List.range n).flatMap fun a => (List.range m).map fun b => f a b

theorem mem_gridWrites {n m : ℕ} {f : ℕ → ℕ → ℤ × ℤ × ℝ} {t : ℤ × ℤ × ℝ} :
    t ∈ gridWrites n m f ↔ ∃ a < n, ∃ b < m, t = f a b := by
  simp only [gridWrites, List.mem_flatMap, List.mem_map, List.mem_range]
  constructor
  · rintro ⟨a, ha, b, hb, rfl⟩; exact ⟨a, ha, b, hb, rfl⟩
  · rintro ⟨a, ha, b, hb, rfl⟩; exact ⟨a, ha, b, hb, rfl⟩

theorem nodup_keys_gridWrites (n m : ℕ) (f : ℕ → ℕ → ℤ × ℤ × ℝ)
    (hinj : ∀ a b a' b', a < n → b < m → a' < n → b' < m →
      (f a b).1 = (f a' b').1 → (f a b).2.1 = (f a' b').2.1 → a = a' ∧ b = b') :
    ((gridWrites n m f).map fun t => (t.1, t.2.1)).Nodup := by
  unfold gridWrites
  rw [List.map_flatMap]
  rw [List.nodup_flatMap]
  constructor
  · intro a ha
    rw [List.map_map, List.nodup_map_iff_inj_on (List.nodup_range m)]
    intro b hb b' hb' he
    simp only [List.mem_range] at ha hb hb'
    simp only [Function.comp_apply, Prod.mk.injEq] at he
    exact (hinj a b a b' ha hb ha hb' he.1 he.2).2
  · rw [List.pairwise_iff_forall_sublist]
    intro a a' hsub
    have hlt : a < a' := by
      have hp : ([a, a']).Pairwise (· < ·) :=
        List.Pairwise.sublist hsub (List.pairwise_lt_range n)
      exact (List.pairwise_cons.mp hp).1 a' (List.mem_cons_self a' [])
    have hmem := hsub.subset
    have ha : a ∈ List.range n := hmem (List.mem_cons_self a [a'])
    have ha' : a' ∈ List.range n := hmem (List.mem_cons_of_mem a (List.mem_cons_self a' []))
    have hne : a ≠ a' := Nat.ne_of_lt hlt
    simp only [List.mem_range] at ha ha'
    intro t ht ht'
    simp only [Function.onFun, List.map_map, List.mem_map, List.mem_range] at ht ht'
    obtain ⟨b, hb, rfl⟩ := ht
    obtain ⟨b', hb', he⟩ := ht'
    simp only [Function.comp_apply, Prod.mk.injEq] at he
    exact hne (hinj a' b' a b ha' hb' ha hb he.1 he.2).1.symm

/-! ### Kernel construction (`getRadiusMatrix`, `KernelCore*`, `ComputeKernel`) -/

/-- Writes of the source `getRadiusMatrix` loop: for `i, j ∈ [-R, R]` set
entry `(R+i, R+j)` to `math.Sqrt(float64(i*i + j*j))`.  We index the loop by
`a = R + i ∈ [0, 2R]`. -/
def radiusWrites (R : ℕ) : List (ℤ × ℤ × ℝ) :=
  gridWrites (2 * R + 1) (2 * R + 1) fun a b =>
    ((a : ℤ), (b : ℤ),
      Real.sqrt ((((a : ℤ) - R) * ((a : ℤ) - R) + ((b : ℤ) - R) * ((b : ℤ) - R) : ℤ) : ℝ))

/-- Source `getRadiusMatrix(R)`: a `(2R+1) × (2R+1)` matrix whose entry is
the distance to the center.  (The source takes a Go `int`; a negative
argument would panic in `mat.NewDense` and is guarded by the callers we
embed, so the embedding takes `ℕ`.) -/
def getRadiusMatrix (R : ℕ) : Option (ℕ → ℕ → ℝ) :=
  applyWrites (2 * R + 1) (2 * R + 1) (fun _ _ => 0) (radiusWrites R)

theorem getRadiusMatrix_spec (R : ℕ) :
    ∃ rm, getRadiusMatrix R = some rm ∧
      ∀ a b : ℕ, a < 2 * R + 1 → b < 2 * R + 1 →
        rm a b =
          Real.sqrt ((((a : ℤ) - R) * ((a : ℤ) - R) + ((b : ℤ) - R) * ((b : ℤ) - R) : ℤ) : ℝ) := by
  obtain ⟨rm, hrm⟩ := applyWrites_total (2 * R + 1) (2 * R + 1) (radiusWrites R)
    (fun _ _ => 0) (by
      intro t ht
      obtain ⟨a, ha, b, hb, rfl⟩ := mem_gridWrites.mp ht
      refine ⟨Int.ofNat_nonneg a, ?_, Int.ofNat_nonneg b, ?_⟩
      · show (a : ℤ) < ((2 * R + 1 : ℕ) : ℤ); exact_mod_cast ha
      · show (b : ℤ) < ((2 * R + 1 : ℕ) : ℤ); exact_mod_cast hb
    )
  refine ⟨rm, hrm, ?_⟩
  intro a b ha hb
  refine applyWrites_get_of_mem _ _ _ _ _ hrm ?_
    ((a : ℤ), (b : ℤ),
      Real.sqrt ((((a : ℤ) - R) * ((a : ℤ) - R) + ((b : ℤ) - R) * ((b : ℤ) - R) : ℤ) : ℝ))
    (mem_gridWrites.mpr ⟨a, ha, b, hb, rfl⟩) a b rfl rfl
  exact nodup_keys_gridWrites _ _ _ (by
    intro x y x' y' _ _ _ _ h1 h2
    have h1' : (x : ℤ) = (x' : ℤ) := h1
    have h2' : (y : ℤ) = (y' : ℤ) := h2
    exact ⟨by exact_mod_cast h1', by exact_mod_cast h2'⟩)

/-- Source `KernelCorePoly(r)`: `math.Pow(4r(1-r), 4)`. -/
def KernelCorePoly (r : ℝ) : ℝ :=
  (4 * r * (1 - r)) ^ (4 : ℕ)

/-- Source `KernelCoreExp(r)`: `math.Exp(4 - 4/(4r(1-r)))`.  The branch at
`4r(1-r) = 0` mirrors IEEE-754 semantics of the Go expression: there the
division produces `+Inf` (the denominator is `+0` at `r = 0` and `r = 1`)
and `math.Exp(-Inf) = 0`, while real-number division by zero in Lean would
give `Real.exp 4` instead. -/
def KernelCoreExp (r : ℝ) : ℝ :=
  if 4 * r * (1 - r) = 0 then 0 else Real.exp (4 - 4 / (4 * r * (1 - r)))

/-- The kernel-shell map applied pointwise by `ComputeKernel`:
values at ring index `v ≥ len(Beta)` are zeroed, otherwise weighted as
`Beta[int(math.Floor(v))] * KernelCoreExp(math.Mod(v, 1))`.  Go's slice
indexing panics for `v < 0` (unreachable when `R > 0`, where `v ≥ 0`);
the total embedding uses `List.getD` whose default is never read for
`0 ≤ v < len(Beta)`. -/
def kernelShell (Beta : List ℝ) (v : ℝ) : ℝ :=
  if v ≥ (Beta.length : ℝ) then 0
  else Beta.getD (Int.floor v).toNat 0 * KernelCoreExp (goFMod v 1)

/-- Unnormalized kernel of `Config.ComputeKernel` (source lines 224-235):
radius matrix, scaled by `lenBeta * Dx`, then the shell map applied
pointwise. -/
def computeKernelRawM (Rn : ℕ) (Dx : ℝ) (Beta : List ℝ) : Option (ℕ → ℕ → ℝ) := do
  let K0 ← getRadiusMatrix Rn
  let lenBetaDx := (Beta.length : ℝ) * Dx
  some fun a b => kernelShell Beta (lenBetaDx * K0 a b)

/-- Sum of all entries of an `n × m` matrix (`floats.Sum(K.RawMatrix().Data)`). -/
def matSum (n m : ℕ) (K : ℕ → ℕ → ℝ) : ℝ :=
  ∑ a ∈ Finset.range n, ∑ b ∈ Finset.range m, K a b

/-! ### Spectral transform

The 2-D FFT comes from the external go-dsp library, which is not part of
this repository.  Modelled from the spec: SpectralTransform.forward/inverse
are "standard 2-D discrete Fourier transform pair" (§4.3); the forward
transform is unscaled with negative exponent and the inverse carries the
`1/(H*W)` factor, go-dsp's convention. -/

/-- Modelled from the spec: the character `e^{2πik/N}` entering the
standard DFT (the transform itself lives in the external go-dsp library,
which is not part of this repository; §4.3 specifies the standard pair). -/
def dftChar (N : ℕ) (k : ℤ) : ℂ :=
  Complex.exp (2 * Real.pi * Complex.I * k / N)

/-- Modelled from the spec: standard forward 2-D DFT of an `H × W` complex
matrix (go-dsp `fft.FFT2Real`, unscaled, negative exponent). -/
def dftCell (H W : ℕ) (f : ℕ → ℕ → ℂ) (u v : ℕ) : ℂ :=
  ∑ i ∈ Finset.range H, ∑ j ∈ Finset.range W,
    f i j * dftChar H (-(u * i : ℕ)) * dftChar W (-(v * j : ℕ))

/-- Modelled from the spec: standard inverse 2-D DFT with the `1/(H*W)`
normalization (go-dsp `fft.IFFT2`). -/
def idftCell (H W : ℕ) (F : ℕ → ℕ → ℂ) (i j : ℕ) : ℂ :=
  (1 / (H * W : ℂ)) * ∑ u ∈ Finset.range H, ∑ v ∈ Finset.range W,
    F u v * dftChar H (u * i : ℕ) * dftChar W (v * j : ℕ)

/-- Source `FFT(m)`: forward transform of a real matrix. -/
def FFT (H W : ℕ) (m : ℕ → ℕ → ℝ) : ℕ → ℕ → ℂ :=
  dftCell H W fun i j => (m i j : ℂ)

/-- Source `IFFT(m)`: inverse transform. -/
def IFFT (H W : ℕ) (m : ℕ → ℕ → ℂ) : ℕ → ℕ → ℂ :=
  idftCell H W m

/-- Source `RealPart(m)`: the real parts of a complex matrix. -/
def RealPart (m : ℕ → ℕ → ℂ) : ℕ → ℕ → ℝ :=
  fun i j => (m i j).re

/-- Source `ComplexMulElem(m1, m2)` with `m1, m2` of dimensions `r × c`.
The source loops run `i < r` and `j < r` (the inner bound is the row count,
not the column count), setting `result[i,j]` to the product assembled from
real and imaginary parts.  When `r > c` the read `m1.At(i, j)` panics at
`j = c` (embedded as `none`); when `r ≤ c` the entries with `r ≤ j < c`
keep `mat.NewCDense`'s zero. -/
def ComplexMulElem (r c : ℕ) (m1 m2 : ℕ → ℕ → ℂ) : Option (ℕ → ℕ → ℂ) :=
  if r ≤ c then
    some fun i j =>
      if i < r ∧ j < r then
        ⟨(m1 i j).re * (m2 i j).re - (m1 i j).im * (m2 i j).im,
         (m1 i j).re * (m2 i j).im + (m2 i j).re * (m1 i j).im⟩
      else 0
  else none

/-- Writes of the source `FFTShift` loop for a kernel of side `kn` into an
`r × c` matrix: `R := (kn-1)/2`; for `i, j ∈ [-R, R]` the value
`m.At(i+R, j+R)` is written to `(mod(i, c), mod(j, c))` — the row index is
wrapped modulo the column count `c`, exactly as in the source.  The loop is
indexed by `a = i + R`. -/
def fftShiftWrites (m : ℕ → ℕ → ℝ) (kn c : ℕ) : List (ℤ × ℤ × ℝ) :=
  gridWrites (2 * ((kn - 1) / 2) + 1) (2 * ((kn - 1) / 2) + 1) fun a b =>
    (goMod ((a : ℤ) - ((kn - 1) / 2 : ℕ)) c, goMod ((b : ℤ) - ((kn - 1) / 2 : ℕ)) c, m a b)

/-- Source `FFTShift(m, r, c)` for a kernel matrix `m` of side `kn`.
`mod(·, 0)` in Go is an integer division by zero (a panic), hence the
`c = 0` guard. -/
def FFTShift (m : ℕ → ℕ → ℝ) (kn r c : ℕ) : Option (ℕ → ℕ → ℝ) :=
  if c = 0 then none
  else applyWrites r c (fun _ _ => 0) (fftShiftWrites m kn c)

/-- Source `Config.ComputeKernel` (for a state of dimensions `h × w`):
build the raw kernel, normalize by the reciprocal of its sum, and compute
the FFT of its circular shift.  Returns `(Kernel, KFFT)`.
`mat.NewDense(2*int(R)+1, ...)` panics for `int(R) < 0`, hence the guard.
Over `ℝ` the normalization `1/sum` is total (it yields `0` when the sum is
zero); the IEEE-754 behaviour of that degenerate case is modelled
separately by `kernelScaleFP`. -/
def ComputeKernel (h w : ℕ) (R Dx : ℝ) (Beta : List ℝ) :
    Option ((ℕ → ℕ → ℝ) × (ℕ → ℕ → ℂ)) := do
  if trunc R < 0 then none
  else do
    let Rn := (trunc R).toNat
    let KS ← computeKernelRawM Rn Dx Beta
    let n := 2 * Rn + 1
    let sumK := 1 / matSum n n KS
    let K := fun a b => sumK * KS a b
    let Ksh ← FFTShift K n h w
    some (K, FFT h w Ksh)

/-- The normalization step of `ComputeKernel` under IEEE-754 semantics:
`sumK := 1 / floats.Sum(...)` followed by `K.Scale(sumK, K)` applied to an
entry `x` of the raw kernel with raw sum `S`.  All raw entries and the raw
sum are finite reals, so only this division and multiplication can create
non-finite values. -/
def kernelScaleFP (S x : ℝ) : FP :=
  FP.mul (FP.div (FP.fin 1) (FP.fin S)) (FP.fin x)

/-! ### Growth mapping and integrator -/

/-- Source `Config.GrowthMapping` applied pointwise to a potential value:
`2*exp(-(v-Mu)^2 / (2*Sigma^2)) - 1`. -/
def GrowthMapping (Mu Sigma v : ℝ) : ℝ :=
  2 * Real.exp (-1 * (v - Mu) ^ (2 : ℕ) / (2 * Sigma ^ (2 : ℕ))) - 1

/-- The source `Config` struct (the unused `G *mat.Dense` scratch field is
omitted; dimensions of `A` are carried explicitly). -/
structure Config where
  h : ℕ
  w : ℕ
  A : ℕ → ℕ → ℝ
  Kernel : ℕ → ℕ → ℝ
  KFFT : ℕ → ℕ → ℂ
  R : ℝ
  T : ℝ
  Mu : ℝ
  Sigma : ℝ
  Dx : ℝ
  Dt : ℝ
  Beta : List ℝ

/-- Source `Config.Update` (lines 255-282): the FFT path computes the
potential `U = RealPart(IFFT(ComplexMulElem(KFFT, FFT(A))))` (the spatial
`convolve` branch is behind `if false`), then growth is applied, scaled by
`Dt`, added to `A`, and the result clipped into `[0, 1]` pointwise. -/
def Update (c : Config) : Option Config := do
  let P ← ComplexMulElem c.h c.w c.KFFT (FFT c.h c.w c.A)
  some { c with A := (fun i j =>
    Clip (c.A i j + c.Dt * GrowthMapping c.Mu c.Sigma (RealPart (IFFT c.h c.w P) i j)) 0 1) }

/-- Iterated `Update`. -/
def updateN : ℕ → Config → Option Config
  | 0, c => some c
  | n + 1, c => do
    let c' ← Update c
    updateN n c'

/-! ### Random initial state (`randInt`, `Config.InitState`, `NewConfig`)

The package-level generator `r0` is modelled as two arbitrary streams: one
of naturals (each call to `Intn(n)` consumes one and reduces it mod `n`)
and one of reals in `[0,1)` (each call to `Float64` consumes one).  A pair
of counters tracks the position in each stream. -/

structure Rng where
  ints : ℕ → ℕ
  floats : ℕ → ℝ

structure RState where
  ri : ℕ
  rf : ℕ

/-- Go `rand.Intn(n)` panics for `n ≤ 0`, otherwise returns a value in
`[0, n)`, modelled as the next stream value reduced mod `n`. -/
def intn (g : Rng) (s : RState) (n : ℤ) : Option (ℤ × RState) :=
  if n ≤ 0 then none
  else some ((g.ints s.ri : ℤ) % n, { s with ri := s.ri + 1 })

/-- Source `randInt(min, max)`: `r0.Intn(max-min) + min`. -/
def randInt (g : Rng) (s : RState) (mn mx : ℤ) : Option (ℤ × RState) :=
  (intn g s (mx - mn)).map fun p => (p.1 + mn, p.2)

/-- Writes of one rectangle fill of `InitState`: for `i ∈ [x-w1, x+w1)` and
`j ∈ [y-w2, y+w2)`, `c.A.Set(i, j, r0.Float64())` in row-major order, each
write consuming the next float of the stream (`s.rf` is the position at
loop entry). -/
def rectWrites (g : Rng) (s : RState) (x y w1 w2 : ℤ) : List (ℤ × ℤ × ℝ) :=
  gridWrites (2 * w1).toNat (2 * w2).toNat fun a b =>
    (x - w1 + a, y - w2 + b, g.floats (s.rf + a * (2 * w2).toNat + b))

/-- The body of one iteration of the `InitState` patch loop: two random
half-widths, a random center, then the rectangle fill. -/
def placePatch (h w : ℕ) (g : Rng) (A : ℕ → ℕ → ℝ) (s : RState) :
    Option ((ℕ → ℕ → ℝ) × RState) := do
  let p1 ← randInt g s 20 50
  let p2 ← randInt g p1.2 20 50
  let p3 ← randInt g p2.2 p1.1 ((w : ℤ) - p1.1)
  let p4 ← randInt g p3.2 p2.1 ((h : ℤ) - p2.1)
  let A' ← applyWrites h w A (rectWrites g p4.2 p3.1 p4.1 p1.1 p2.1)
  some (A', { p4.2 with rf := p4.2.rf + (2 * p1.1).toNat * (2 * p2.1).toNat })

/-- The `InitState` loop `for k := 0; k < randInt(int(w/50), int(w/30)); k++`:
Go re-evaluates the bound (drawing a fresh random count) at every check.
Each drawn count is `< w/30`, so the loop performs at most `w/30 + 1`
checks; `InitState` supplies that much fuel, making the `0`-fuel case
unreachable. -/
def patchLoop (h w : ℕ) (g : Rng) :
    ℕ → ℤ → (ℕ → ℕ → ℝ) → RState → Option ((ℕ → ℕ → ℝ) × RState)
  | 0, _, _, _ => none
  | fuel + 1, k, A, s => do
    let pc ← randInt g s ((w : ℤ) / 50) ((w : ℤ) / 30)
    if k < pc.1 then do
      let pr ← placePatch h w g A pc.2
      patchLoop h w g fuel (k + 1) pr.1 pr.2
    else
      some (A, pc.2)

/-- Source `Config.InitState` for a state matrix of dimensions `h × w`
(`h, w := c.A.Dims()`). -/
def InitState (h w : ℕ) (A : ℕ → ℕ → ℝ) (g : Rng) (s : RState) :
    Option ((ℕ → ℕ → ℝ) × RState) :=
  patchLoop h w g (w / 30 + 1) 0 A s

/-- Source `NewConfig(h, w, R, T, Mu, Sigma, Beta)`: zero state matrix, the
parameters, derived `Dx = 1/R` and `Dt = 1/T`, then `ComputeKernel` and
`InitState`.  (Over `ℝ`, `1/0 = 0` where Go's float division would give
`+Inf`; no claim below depends on `Dx`/`Dt` at a zero denominator.)  The
source performs no parameter validation whatsoever. -/
def NewConfig (h w : ℕ) (R T Mu Sigma : ℝ) (Beta : List ℝ) (g : Rng) (s : RState) :
    Option Config := do
  let A0 : ℕ → ℕ → ℝ := fun _ _ => 0
  let Dx := 1 / R
  let Dt := 1 / T
  let kk ← ComputeKernel h w R Dx Beta
  let ia ← InitState h w A0 g s
  some { h := h, w := w, A := ia.1, Kernel := kk.1, KFFT := kk.2,
         R := R, T := T, Mu := Mu, Sigma := Sigma, Dx := Dx, Dt := Dt, Beta := Beta }

/-! ### Spatial convolution (`padMatrix`, `convolve`) -/

/-- Source `padMatrix(m, padding)` for an `h × w` matrix: zero matrix of
dimensions `(h+2p) × (w+2p)` with `m` copied at the center.  The copy loops
run `i < h, j < h` (the inner bound is the row count): for `h > w` the read
`m.At(i, j)` panics at `j = w`; for `h ≤ w` all writes land in bounds and
interior columns `j ∈ [h, w)` keep the zero fill. -/
def padMatrix (h w p : ℕ) (m : ℕ → ℕ → ℝ) : Option (ℕ → ℕ → ℝ) :=
  if h ≤ w then
    applyWrites (h + 2 * p) (w + 2 * p) (fun _ _ => 0)
      (gridWrites h h fun i j => (((i + p : ℕ) : ℤ), ((j + p : ℕ) : ℤ), m i j))
  else none

/-- Source `convolve(m, kernel)` for `m` of dimensions `h × w` and a square
kernel of side `kn`: pad `m` by `p = (kn-1)/2`, then every interior cell of
the result is the elementwise product of the `(2p+1) × (2p+1)` window of
the padded matrix with the kernel, summed; the padding ring is dropped
again by the final slice.  `subm.MulElem(subm, kernel)` panics unless the
window and the kernel have equal dimensions, i.e. unless `kn = 2p+1`
(`kn` odd). -/
def convolve (h w kn : ℕ) (m kernel : ℕ → ℕ → ℝ) : Option (ℕ → ℕ → ℝ) := do
  let p := (kn - 1) / 2
  if 2 * p + 1 = kn then do
    let n ← padMatrix h w p m
    some fun x y =>
      ∑ a ∈ Finset.range (2 * p + 1), ∑ b ∈ Finset.range (2 * p + 1),
        n (x + a) (y + b) * kernel a b
  else none

/-! ### Discrete Fourier theory: orthogonality and the convolution theorem -/

theorem dftChar_add (N : ℕ) (k l : ℤ) :
    dftChar N (k + l) = dftChar N k * dftChar N l := by
  unfold dftChar
  rw [← Complex.exp_add]
  congr 1
  push_cast
  ring

theorem dftChar_zero (N : ℕ) : dftChar N 0 = 1 := by
  unfold dftChar
  simp

theorem dftChar_nat_mul (N : ℕ) (u : ℕ) (k : ℤ) :
    dftChar N ((u : ℤ) * k) = dftChar N k ^ u := by
  unfold dftChar
  rw [← Complex.exp_nat_mul]
  congr 1
  push_cast
  ring

theorem dftChar_int_dvd (N : ℕ) (hN : 0 < N) (m : ℤ) :
    dftChar N ((N : ℤ) * m) = 1 := by
  unfold dftChar
  have hNe : (N : ℂ) ≠ 0 := Nat.cast_ne_zero.mpr hN.ne'
  have : 2 * (Real.pi : ℂ) * Complex.I * ((N : ℤ) * m : ℤ) / N = m * (2 * Real.pi * Complex.I) := by
    push_cast
    field_simp
    ring
  rw [this, Complex.exp_int_mul_two_pi_mul_I]

theorem dftChar_ne_one (N : ℕ) (hN : 0 < N) (k : ℤ) (hk : ¬ (N : ℤ) ∣ k) :
    dftChar N k ≠ 1 := by
  unfold dftChar
  intro h
  obtain ⟨n, hn⟩ := Complex.exp_eq_one_iff.mp h
  apply hk
  have hNe : (N : ℂ) ≠ 0 := Nat.cast_ne_zero.mpr hN.ne'
  have hpi : (Real.pi : ℂ) ≠ 0 := Complex.ofReal_ne_zero.mpr Real.pi_ne_zero
  have h4 : (2 : ℂ) * Real.pi * Complex.I ≠ 0 := by
    simp [hpi, Complex.I_ne_zero]
  rw [div_eq_iff hNe] at hn
  have h5 : (2 * (Real.pi : ℂ) * Complex.I) * (k : ℂ) =
      (2 * (Real.pi : ℂ) * Complex.I) * ((n : ℂ) * N) := by
    linear_combination hn
  have h6 : (k : ℂ) = (n : ℂ) * N := mul_left_cancel₀ h4 h5
  have h7 : k = n * (N : ℤ) := by exact_mod_cast h6
  exact ⟨n, by rw [h7]; ring⟩

theorem sum_dftChar (N : ℕ) (hN : 0 < N) (k : ℤ) :
    ∑ u ∈ Finset.range N, dftChar N ((u : ℤ) * k) =
      if (N : ℤ) ∣ k then (N : ℂ) else 0 := by
  by_cases hdvd : (N : ℤ) ∣ k
  · obtain ⟨m, rfl⟩ := hdvd
    rw [if_pos ⟨m, rfl⟩]
    have h1 : ∀ u ∈ Finset.range N, dftChar N ((u : ℤ) * ((N : ℤ) * m)) = 1 := by
      intro u _
      have : (u : ℤ) * ((N : ℤ) * m) = (N : ℤ) * ((u : ℤ) * m) := by ring
      rw [this, dftChar_int_dvd N hN]
    rw [Finset.sum_congr rfl h1]
    simp
  · rw [if_neg hdvd]
    have hne : dftChar N k ≠ 1 := dftChar_ne_one N hN k hdvd
    have h1 : ∀ u ∈ Finset.range N, dftChar N ((u : ℤ) * k) = dftChar N k ^ u :=
      fun u _ => dftChar_nat_mul N u k
    rw [Finset.sum_congr rfl h1, geom_sum_eq hne]
    have hNk : dftChar N k ^ N = 1 := by
      rw [← dftChar_nat_mul, dftChar_int_dvd N hN]
    rw [hNk]
    simp

/-- The circular index `t mod N` as a natural number. -/
def wrapIdx (N : ℕ) (t : ℤ) : ℕ :=
  (t % (N : ℤ)).toNat

theorem wrapIdx_lt (N : ℕ) (hN : 0 < N) (t : ℤ) : wrapIdx N t < N := by
  unfold wrapIdx
  have h1 : t % (N : ℤ) < (N : ℤ) := Int.emod_lt_of_pos t (by exact_mod_cast hN)
  have h2 : 0 ≤ t % (N : ℤ) := Int.emod_nonneg t (by exact_mod_cast hN.ne')
  omega

theorem dvd_sub_wrapIdx (N : ℕ) (hN : 0 < N) (t : ℤ) :
    (N : ℤ) ∣ (t - wrapIdx N t) := by
  unfold wrapIdx
  have h2 : 0 ≤ t % (N : ℤ) := Int.emod_nonneg t (by exact_mod_cast hN.ne')
  rw [Int.toNat_of_nonneg h2]
  exact Int.dvd_sub_of_emod_eq rfl

theorem eq_wrapIdx_of_dvd (N : ℕ) (hN : 0 < N) (t : ℤ) (k : ℕ) (hk : k < N)
    (hdvd : (N : ℤ) ∣ (t - k)) : k = wrapIdx N t := by
  unfold wrapIdx
  have hNz : (N : ℤ) ≠ 0 := by exact_mod_cast hN.ne'
  have h1 : (k : ℤ) % (N : ℤ) = t % (N : ℤ) := by
    have := Int.emod_emod_of_dvd t (dvd_refl (N : ℤ))
    obtain ⟨m, hm⟩ := hdvd
    have hkt : (k : ℤ) = t - (N : ℤ) * m := by omega
    have hkt2 : t - (N : ℤ) * m = t + (N : ℤ) * (-m) := by ring
    rw [hkt, hkt2, Int.add_mul_emod_self_left]
  have h2 : (k : ℤ) % (N : ℤ) = k := Int.emod_eq_of_lt (Int.ofNat_nonneg k) (by exact_mod_cast hk)
  omega

/-- The 1-D discrete convolution theorem: the inverse transform of the
pointwise product of two forward transforms is the circular convolution. -/
theorem conv1 (N : ℕ) (hN : 0 < N) (a b : ℕ → ℂ) (x : ℕ) :
    (1 / (N : ℂ)) * ∑ u ∈ Finset.range N,
      (∑ i ∈ Finset.range N, a i * dftChar N (-(u * i : ℕ))) *
      (∑ k ∈ Finset.range N, b k * dftChar N (-(u * k : ℕ))) *
      dftChar N ((u * x : ℕ)) =
    ∑ i ∈ Finset.range N, a i * b (wrapIdx N ((x : ℤ) - i)) := by
  have hNe : (N : ℂ) ≠ 0 := Nat.cast_ne_zero.mpr hN.ne'
  have hterm : ∀ u ∈ Finset.range N,
      (∑ i ∈ Finset.range N, a i * dftChar N (-(u * i : ℕ))) *
      (∑ k ∈ Finset.range N, b k * dftChar N (-(u * k : ℕ))) *
      dftChar N ((u * x : ℕ)) =
      ∑ i ∈ Finset.range N, ∑ k ∈ Finset.range N,
        a i * b k * dftChar N ((u : ℤ) * ((x : ℤ) - i - k)) := by
    intro u _
    rw [Finset.sum_mul_sum, Finset.sum_mul]
    refine Finset.sum_congr rfl fun i _ => ?_
    rw [Finset.sum_mul]
    refine Finset.sum_congr rfl fun k _ => ?_
    have harg : (u : ℤ) * ((x : ℤ) - i - k) =
        (-(u * i : ℕ) : ℤ) + ((-(u * k : ℕ) : ℤ) + ((u * x : ℕ) : ℤ)) := by
      push_cast
      ring
    rw [harg, dftChar_add, dftChar_add]
    ring
  rw [Finset.sum_congr rfl hterm, Finset.sum_comm]
  have hswap : ∀ i ∈ Finset.range N,
      ∑ u ∈ Finset.range N, ∑ k ∈ Finset.range N,
        a i * b k * dftChar N ((u : ℤ) * ((x : ℤ) - i - k)) =
      ∑ k ∈ Finset.range N, a i * b k *
        (if (N : ℤ) ∣ ((x : ℤ) - i - k) then (N : ℂ) else 0) := by
    intro i _
    rw [Finset.sum_comm]
    refine Finset.sum_congr rfl fun k _ => ?_
    rw [← Finset.mul_sum, sum_dftChar N hN]
  rw [Finset.sum_congr rfl hswap]
  have hcol : ∀ i ∈ Finset.range N,
      ∑ k ∈ Finset.range N, a i * b k *
        (if (N : ℤ) ∣ ((x : ℤ) - i - k) then (N : ℂ) else 0) =
      a i * b (wrapIdx N ((x : ℤ) - i)) * N := by
    intro i _
    rw [Finset.sum_eq_single (wrapIdx N ((x : ℤ) - i))]
    · rw [if_pos (dvd_sub_wrapIdx N hN ((x : ℤ) - i))]
    · intro k hkmem hne
      rw [if_neg, mul_zero]
      intro hdvd
      exact hne (eq_wrapIdx_of_dvd N hN ((x : ℤ) - i) k (Finset.mem_range.mp hkmem) hdvd)
    · intro habs
      exact absurd (Finset.mem_range.mpr (wrapIdx_lt N hN _)) habs
  rw [Finset.sum_congr rfl hcol, Finset.mul_sum]
  refine Finset.sum_congr rfl fun i _ => ?_
  field_simp

/-- The 2-D discrete convolution theorem: the inverse 2-D transform of the
pointwise product of two forward 2-D transforms is the 2-D circular
convolution. -/
theorem conv2 (H W : ℕ) (hH : 0 < H) (hW : 0 < W) (f g : ℕ → ℕ → ℂ) (x y : ℕ) :
    idftCell H W (fun u v => dftCell H W f u v * dftCell H W g u v) x y =
    ∑ i ∈ Finset.range H, ∑ j ∈ Finset.range W,
      f i j * g (wrapIdx H ((x : ℤ) - i)) (wrapIdx W ((y : ℤ) - j)) := by
  have hdft : ∀ (h : ℕ → ℕ → ℂ) (u v : ℕ), dftCell H W h u v =
      ∑ j ∈ Finset.range W,
        (∑ i ∈ Finset.range H, h i j * dftChar H (-(u * i : ℕ))) *
          dftChar W (-(v * j : ℕ)) := by
    intro h u v
    unfold dftCell
    rw [Finset.sum_comm]
    refine Finset.sum_congr rfl fun j _ => ?_
    rw [Finset.sum_mul]
  have key : ∀ u : ℕ,
      (1 / (W : ℂ)) * ∑ v ∈ Finset.range W,
        dftCell H W f u v * dftCell H W g u v * dftChar W ((v * y : ℕ)) =
      ∑ j ∈ Finset.range W,
        (∑ i ∈ Finset.range H, f i j * dftChar H (-(u * i : ℕ))) *
        (∑ k ∈ Finset.range H,
          g k (wrapIdx W ((y : ℤ) - j)) * dftChar H (-(u * k : ℕ))) := by
    intro u
    have hc := conv1 W hW
      (fun j => ∑ i ∈ Finset.range H, f i j * dftChar H (-(u * i : ℕ)))
      (fun l => ∑ k ∈ Finset.range H, g k l * dftChar H (-(u * k : ℕ))) y
    rw [← hc]
    congr 1
    refine Finset.sum_congr rfl fun v _ => ?_
    rw [hdft f u v, hdft g u v]
  unfold idftCell
  have hB : (1 / ((H : ℂ) * (W : ℂ))) * (∑ u ∈ Finset.range H, ∑ v ∈ Finset.range W,
        dftCell H W f u v * dftCell H W g u v *
          dftChar H ((u * x : ℕ)) * dftChar W ((v * y : ℕ))) =
      (1 / (H : ℂ)) * ∑ u ∈ Finset.range H,
        ((1 / (W : ℂ)) * ∑ v ∈ Finset.range W,
          dftCell H W f u v * dftCell H W g u v * dftChar W ((v * y : ℕ))) *
        dftChar H ((u * x : ℕ)) := by
    simp only [Finset.mul_sum, Finset.sum_mul]
    refine Finset.sum_congr rfl fun u _ => Finset.sum_congr rfl fun v _ => ?_
    rw [one_div, mul_inv]
    ring
  rw [hB]
  have hK : ∀ u ∈ Finset.range H,
      ((1 / (W : ℂ)) * ∑ v ∈ Finset.range W,
        dftCell H W f u v * dftCell H W g u v * dftChar W ((v * y : ℕ))) *
        dftChar H ((u * x : ℕ)) =
      ∑ j ∈ Finset.range W,
        (∑ i ∈ Finset.range H, f i j * dftChar H (-(u * i : ℕ))) *
        (∑ k ∈ Finset.range H,
          g k (wrapIdx W ((y : ℤ) - j)) * dftChar H (-(u * k : ℕ))) *
        dftChar H ((u * x : ℕ)) := by
    intro u _
    rw [key u, Finset.sum_mul]
  rw [Finset.sum_congr rfl hK, Finset.sum_comm, Finset.mul_sum]
  have hE : ∀ j ∈ Finset.range W,
      (1 / (H : ℂ)) * ∑ u ∈ Finset.range H,
        (∑ i ∈ Finset.range H, f i j * dftChar H (-(u * i : ℕ))) *
        (∑ k ∈ Finset.range H,
          g k (wrapIdx W ((y : ℤ) - j)) * dftChar H (-(u * k : ℕ))) *
        dftChar H ((u * x : ℕ)) =
      ∑ i ∈ Finset.range H, f i j * g (wrapIdx H ((x : ℤ) - i)) (wrapIdx W ((y : ℤ) - j)) := by
    intro j _
    exact conv1 H hH (fun i => f i j) (fun k => g k (wrapIdx W ((y : ℤ) - j))) x
  rw [Finset.sum_congr rfl hE, Finset.sum_comm]

/-! ### The source positive modulo and the circular shift, on square grids -/

theorem tmod_lower (a b : ℤ) (hb : 0 < b) : -b < a.tmod b := by
  rcases le_or_lt 0 a with h | h
  · have := Int.tmod_nonneg b h
    omega
  · have h1 : (-a).tmod b = -(a.tmod b) := by
      rw [Int.tmod_def, Int.tmod_def, Int.neg_tdiv]
      ring
    have h2 : (-a).tmod b < b := Int.tmod_lt_of_pos (-a) hb
    omega

theorem goMod_eq_emod (a b : ℤ) (hb : 0 < b) : goMod a b = a % b := by
  unfold goMod
  have h1 : -b < a.tmod b := tmod_lower a b hb
  have h3 : 0 ≤ a.tmod b + b := by omega
  rw [Int.tmod_eq_emod h3 hb.le]
  have h4 : a.tmod b + b = (a + b * (-(a.tdiv b))) + b * 1 := by
    rw [Int.tmod_def]
    ring
  rw [h4, Int.add_mul_emod_self_left, Int.add_mul_emod_self_left]

theorem goMod_toNat_eq_wrapIdx (a : ℤ) (N : ℕ) (hN : 0 < N) :
    (goMod a N).toNat = wrapIdx N a := by
  rw [goMod_eq_emod a N (by exact_mod_cast hN)]
  rfl

theorem goMod_nonneg (a : ℤ) (N : ℕ) (hN : 0 < N) : 0 ≤ goMod a N := by
  rw [goMod_eq_emod a N (by exact_mod_cast hN)]
  exact Int.emod_nonneg a (by exact_mod_cast hN.ne')

theorem goMod_lt (a : ℤ) (N : ℕ) (hN : 0 < N) : goMod a N < N := by
  rw [goMod_eq_emod a N (by exact_mod_cast hN)]
  exact Int.emod_lt_of_pos a (by exact_mod_cast hN)

theorem goMod_inj_of_small (N : ℕ) (hN : 0 < N) (u u' : ℤ)
    (hu : |u - u'| < N) (h : goMod u N = goMod u' N) : u = u' := by
  rw [goMod_eq_emod u N (by exact_mod_cast hN),
    goMod_eq_emod u' N (by exact_mod_cast hN)] at h
  have hdvd : (N : ℤ) ∣ (u - u') := by
    apply Int.dvd_of_emod_eq_zero
    rw [Int.sub_emod, h, sub_self, Int.zero_emod]
  have := Int.eq_zero_of_abs_lt_dvd hdvd hu
  omega

theorem wrapIdx_congr (N : ℕ) (s t : ℤ) (h : s % (N : ℤ) = t % (N : ℤ)) :
    wrapIdx N s = wrapIdx N t := by
  unfold wrapIdx
  rw [h]

/-- Access description of `FFTShift` on a square `N × N` target with an
odd kernel of side `2p+1 ≤ N`: the shift succeeds, the kernel entry at
`(a, b)` lands at the wrapped position `((a-p) mod N, (b-p) mod N)`, and
every position that is not such an image is zero. -/
theorem FFTShift_square (N p : ℕ) (hN : 0 < N) (hkn : 2 * p + 1 ≤ N) (K : ℕ → ℕ → ℝ) :
    ∃ s, FFTShift K (2 * p + 1) N N = some s ∧
      (∀ a b : ℕ, a < 2 * p + 1 → b < 2 * p + 1 →
        s (wrapIdx N ((a : ℤ) - p)) (wrapIdx N ((b : ℤ) - p)) = K a b) ∧
      (∀ t1 t2 : ℕ,
        (∀ a b : ℕ, a < 2 * p + 1 → b < 2 * p + 1 →
          ¬(t1 = wrapIdx N ((a : ℤ) - p) ∧ t2 = wrapIdx N ((b : ℤ) - p))) →
        s t1 t2 = 0) := by
  have hp : (2 * p + 1 - 1) / 2 = p := by omega
  have hNz : (N : ℤ) > 0 := by exact_mod_cast hN
  have hwrites : fftShiftWrites K (2 * p + 1) N =
      gridWrites (2 * p + 1) (2 * p + 1) fun a b =>
        (goMod ((a : ℤ) - p) N, goMod ((b : ℤ) - p) N, K a b) := by
    unfold fftShiftWrites
    rw [hp]
  have hbounds : ∀ t ∈ fftShiftWrites K (2 * p + 1) N,
      0 ≤ t.1 ∧ t.1 < (N : ℤ) ∧ 0 ≤ t.2.1 ∧ t.2.1 < (N : ℤ) := by
    rw [hwrites]
    intro t ht
    obtain ⟨a, _, b, _, rfl⟩ := mem_gridWrites.mp ht
    exact ⟨goMod_nonneg _ N hN, goMod_lt _ N hN, goMod_nonneg _ N hN, goMod_lt _ N hN⟩
  obtain ⟨s, hs⟩ := applyWrites_total N N (fftShiftWrites K (2 * p + 1) N)
    (fun _ _ => 0) hbounds
  have hshift : FFTShift K (2 * p + 1) N N = some s := by
    unfold FFTShift
    rw [if_neg hN.ne', hs]
  have hnodup : ((fftShiftWrites K (2 * p + 1) N).map fun t => (t.1, t.2.1)).Nodup := by
    rw [hwrites]
    refine nodup_keys_gridWrites _ _ _ ?_
    intro a b a' b' ha hb ha' hb' h1 h2
    have e1 : (a : ℤ) - p = (a' : ℤ) - p := by
      refine goMod_inj_of_small N hN _ _ ?_ h1
      have : ((a : ℤ) - p) - ((a' : ℤ) - p) = (a : ℤ) - a' := by ring
      rw [this]
      rw [abs_lt]
      constructor <;> [omega; omega]
    have e2 : (b : ℤ) - p = (b' : ℤ) - p := by
      refine goMod_inj_of_small N hN _ _ ?_ h2
      have : ((b : ℤ) - p) - ((b' : ℤ) - p) = (b : ℤ) - b' := by ring
      rw [this]
      rw [abs_lt]
      constructor <;> [omega; omega]
    constructor <;> omega
  refine ⟨s, hshift, ?_, ?_⟩
  · intro a b ha hb
    refine applyWrites_get_of_mem N N _ _ _ hs hnodup
      (goMod ((a : ℤ) - p) N, goMod ((b : ℤ) - p) N, K a b) ?_ _ _ ?_ ?_
    · rw [hwrites]
      exact mem_gridWrites.mpr ⟨a, ha, b, hb, rfl⟩
    · rw [← goMod_toNat_eq_wrapIdx _ N hN]
      exact Int.toNat_of_nonneg (goMod_nonneg _ N hN)
    · rw [← goMod_toNat_eq_wrapIdx _ N hN]
      exact Int.toNat_of_nonneg (goMod_nonneg _ N hN)
  · intro t1 t2 hno
    have := applyWrites_get_of_not_mem N N _ _ _ hs t1 t2 (by
      rw [hwrites]
      intro t ht hc
      obtain ⟨a, ha, b, hb, rfl⟩ := mem_gridWrites.mp ht
      refine hno a b ha hb ⟨?_, ?_⟩
      · have : (t1 : ℤ) = goMod ((a : ℤ) - p) N := hc.1
        rw [← goMod_toNat_eq_wrapIdx _ N hN, ← this]
        simp
      · have : (t2 : ℤ) = goMod ((b : ℤ) - p) N := hc.2
        rw [← goMod_toNat_eq_wrapIdx _ N hN, ← this]
        simp)
    exact this

/-- On square matrices the elementwise complex product is total and its
in-range entries are the standard complex products. -/
theorem ComplexMulElem_square (N : ℕ) (m1 m2 : ℕ → ℕ → ℂ) :
    ∃ P, ComplexMulElem N N m1 m2 = some P ∧
      ∀ u v : ℕ, u < N → v < N → P u v = m1 u v * m2 u v := by
  refine ⟨_, by unfold ComplexMulElem; rw [if_pos (le_refl N)], ?_⟩
  intro u v hu hv
  rw [if_pos ⟨hu, hv⟩]
  apply Complex.ext
  · simp [Complex.mul_re]
  · simp [Complex.mul_im]
    ring

/-- The spectral potential path of `Config.Update`, exactly as composed in
the source and the spec: `RealPart(IFFT(ComplexMulElem(FFT(FFTShift(K)),
FFT(A))))` for a kernel of side `kn` on an `H × W` grid. -/
def spectralPath (H W kn : ℕ) (K A : ℕ → ℕ → ℝ) : Option (ℕ → ℕ → ℝ) := do
  let Ks ← FFTShift K kn H W
  let P ← ComplexMulElem H W (FFT H W Ks) (FFT H W A)
  some (RealPart (IFFT H W P))

/-- The spectral path on a square grid computes the circular (wrapped)
correlation of the grid with the kernel: at every cell `(x, y)` it equals
`∑ K(a,b) * A((x-(a-p)) mod N, (y-(b-p)) mod N)`. -/
theorem spectralPath_eq_circular (N p : ℕ) (hN : 0 < N) (hkn : 2 * p + 1 ≤ N)
    (K A : ℕ → ℕ → ℝ) :
    ∃ U, spectralPath N N (2 * p + 1) K A = some U ∧
      ∀ x y : ℕ, U x y =
        ∑ a ∈ Finset.range (2 * p + 1), ∑ b ∈ Finset.range (2 * p + 1),
          K a b * A (wrapIdx N ((x : ℤ) - ((a : ℤ) - p))) (wrapIdx N ((y : ℤ) - ((b : ℤ) - p))) := by
  obtain ⟨s, hs, hsget, hszero⟩ := FFTShift_square N p hN hkn K
  obtain ⟨P, hP, hPget⟩ := ComplexMulElem_square N (FFT N N s) (FFT N N A)
  refine ⟨RealPart (IFFT N N P), ?_, ?_⟩
  · unfold spectralPath
    simp only [hs, hP, Option.bind_eq_bind, Option.some_bind]
  intro x y
  -- the inverse transform only reads `P` at in-range frequencies
  have hPsum : IFFT N N P x y =
      idftCell N N (fun u v => dftCell N N (fun i j => (s i j : ℂ)) u v *
        dftCell N N (fun i j => (A i j : ℂ)) u v) x y := by
    unfold IFFT idftCell
    congr 1
    refine Finset.sum_congr rfl fun u hu => Finset.sum_congr rfl fun v hv => ?_
    rw [hPget u v (Finset.mem_range.mp hu) (Finset.mem_range.mp hv)]
    rfl
  have hconv := conv2 N N hN hN (fun i j => (s i j : ℂ)) (fun i j => (A i j : ℂ)) x y
  -- the complex circular convolution of real casts is the cast of the real one
  have hreal : RealPart (IFFT N N P) x y =
      ∑ i ∈ Finset.range N, ∑ j ∈ Finset.range N,
        s i j * A (wrapIdx N ((x : ℤ) - i)) (wrapIdx N ((y : ℤ) - j)) := by
    unfold RealPart
    rw [hPsum, hconv]
    rw [show ∑ i ∈ Finset.range N, ∑ j ∈ Finset.range N,
        ((s i j : ℂ) * (A (wrapIdx N ((x : ℤ) - i)) (wrapIdx N ((y : ℤ) - j)) : ℂ)) =
        ((∑ i ∈ Finset.range N, ∑ j ∈ Finset.range N,
          s i j * A (wrapIdx N ((x : ℤ) - i)) (wrapIdx N ((y : ℤ) - j)) : ℝ) : ℂ) by push_cast; rfl]
    rw [Complex.ofReal_re]
  rw [hreal]
  -- transport the sum over the grid to the sum over kernel offsets
  rw [← Finset.sum_product', ← Finset.sum_product']
  have himg : ∀ q ∈ (Finset.range N ×ˢ Finset.range N) \
      ((Finset.range (2 * p + 1) ×ˢ Finset.range (2 * p + 1)).image
        (fun ab : ℕ × ℕ => (wrapIdx N ((ab.1 : ℤ) - p), wrapIdx N ((ab.2 : ℤ) - p)))),
      s q.1 q.2 * A (wrapIdx N ((x : ℤ) - q.1)) (wrapIdx N ((y : ℤ) - q.2)) = 0 := by
    intro q hq
    rw [Finset.mem_sdiff] at hq
    have hz : s q.1 q.2 = 0 := by
      refine hszero q.1 q.2 ?_
      intro a b ha hb hc
      refine hq.2 (Finset.mem_image.mpr ⟨(a, b), ?_, ?_⟩)
      · exact Finset.mem_product.mpr ⟨Finset.mem_range.mpr ha, Finset.mem_range.mpr hb⟩
      · rw [← hc.1, ← hc.2]
    rw [hz, zero_mul]
  have hsub : ((Finset.range (2 * p + 1) ×ˢ Finset.range (2 * p + 1)).image
      (fun ab : ℕ × ℕ => (wrapIdx N ((ab.1 : ℤ) - p), wrapIdx N ((ab.2 : ℤ) - p)))) ⊆
      Finset.range N ×ˢ Finset.range N := by
    intro q hq
    obtain ⟨ab, _, rfl⟩ := Finset.mem_image.mp hq
    exact Finset.mem_product.mpr
      ⟨Finset.mem_range.mpr (wrapIdx_lt N hN _), Finset.mem_range.mpr (wrapIdx_lt N hN _)⟩
  rw [← Finset.sum_subset hsub (fun q hq1 hq2 => himg q (Finset.mem_sdiff.mpr ⟨hq1, hq2⟩))]
  rw [Finset.sum_image (by
    intro ab hab cd hcd he
    rw [Finset.mem_product, Finset.mem_range, Finset.mem_range] at hab hcd
    have h1 := congrArg Prod.fst he
    have h2 := congrArg Prod.snd he
    simp only at h1 h2
    have e1 : (ab.1 : ℤ) - p = (cd.1 : ℤ) - p := by
      have := congrArg (fun t : ℕ => (t : ℤ)) h1
      simp only at this
      rw [← goMod_toNat_eq_wrapIdx _ N hN, ← goMod_toNat_eq_wrapIdx _ N hN] at this
      rw [Int.toNat_of_nonneg (goMod_nonneg _ N hN),
        Int.toNat_of_nonneg (goMod_nonneg _ N hN)] at this
      refine goMod_inj_of_small N hN _ _ ?_ this
      rw [show ((ab.1 : ℤ) - p) - ((cd.1 : ℤ) - p) = (ab.1 : ℤ) - cd.1 by ring, abs_lt]
      constructor <;> omega
    have e2 : (ab.2 : ℤ) - p = (cd.2 : ℤ) - p := by
      have := congrArg (fun t : ℕ => (t : ℤ)) h2
      simp only at this
      rw [← goMod_toNat_eq_wrapIdx _ N hN, ← goMod_toNat_eq_wrapIdx _ N hN] at this
      rw [Int.toNat_of_nonneg (goMod_nonneg _ N hN),
        Int.toNat_of_nonneg (goMod_nonneg _ N hN)] at this
      refine goMod_inj_of_small N hN _ _ ?_ this
      rw [show ((ab.2 : ℤ) - p) - ((cd.2 : ℤ) - p) = (ab.2 : ℤ) - cd.2 by ring, abs_lt]
      constructor <;> omega
    have : ab.1 = cd.1 := by omega
    have : ab.2 = cd.2 := by omega
    exact Prod.ext (by omega) (by omega))]
  refine Finset.sum_congr rfl fun ab hab => ?_
  rw [Finset.mem_product, Finset.mem_range, Finset.mem_range] at hab
  have hw1 : wrapIdx N ((x : ℤ) - (wrapIdx N ((ab.1 : ℤ) - p) : ℕ)) =
      wrapIdx N ((x : ℤ) - ((ab.1 : ℤ) - p)) := by
    refine wrapIdx_congr N _ _ ?_
    have : ((wrapIdx N ((ab.1 : ℤ) - p) : ℕ) : ℤ) % (N : ℤ) = ((ab.1 : ℤ) - p) % (N : ℤ) := by
      unfold wrapIdx
      rw [Int.toNat_of_nonneg (Int.emod_nonneg _ (by exact_mod_cast hN.ne')), Int.emod_emod_of_dvd _ (dvd_refl _)]
    rw [Int.sub_emod, this, ← Int.sub_emod]
  have hw2 : wrapIdx N ((y : ℤ) - (wrapIdx N ((ab.2 : ℤ) - p) : ℕ)) =
      wrapIdx N ((y : ℤ) - ((ab.2 : ℤ) - p)) := by
    refine wrapIdx_congr N _ _ ?_
    have : ((wrapIdx N ((ab.2 : ℤ) - p) : ℕ) : ℤ) % (N : ℤ) = ((ab.2 : ℤ) - p) % (N : ℤ) := by
      unfold wrapIdx
      rw [Int.toNat_of_nonneg (Int.emod_nonneg _ (by exact_mod_cast hN.ne')), Int.emod_emod_of_dvd _ (dvd_refl _)]
    rw [Int.sub_emod, this, ← Int.sub_emod]
  rw [hsget ab.1 ab.2 hab.1 hab.2, hw1, hw2]

/-- Access description of `padMatrix` on a square `N × N` input: the pad
succeeds and the result holds `A` at the center, zero on the border ring. -/
theorem padMatrix_square (N q : ℕ) (A : ℕ → ℕ → ℝ) :
    ∃ n, padMatrix N N q A = some n ∧
      ∀ u v : ℕ,
        n u v = if q ≤ u ∧ u < N + q ∧ q ≤ v ∧ v < N + q then A (u - q) (v - q) else 0 := by
  have hbounds : ∀ t ∈ gridWrites N N fun i j => (((i + q : ℕ) : ℤ), ((j + q : ℕ) : ℤ), A i j),
      0 ≤ t.1 ∧ t.1 < ((N + 2 * q : ℕ) : ℤ) ∧ 0 ≤ t.2.1 ∧ t.2.1 < ((N + 2 * q : ℕ) : ℤ) := by
    intro t ht
    obtain ⟨i, hi, j, hj, rfl⟩ := mem_gridWrites.mp ht
    refine ⟨Int.ofNat_nonneg _, ?_, Int.ofNat_nonneg _, ?_⟩
    · show ((i + q : ℕ) : ℤ) < ((N + 2 * q : ℕ) : ℤ)
      exact_mod_cast (by omega : i + q < N + 2 * q)
    · show ((j + q : ℕ) : ℤ) < ((N + 2 * q : ℕ) : ℤ)
      exact_mod_cast (by omega : j + q < N + 2 * q)
  obtain ⟨n, hn⟩ := applyWrites_total (N + 2 * q) (N + 2 * q) _ (fun _ _ => 0) hbounds
  have hpad : padMatrix N N q A = some n := by
    unfold padMatrix
    rw [if_pos (le_refl N)]
    exact hn
  have hnodup : ((gridWrites N N fun i j => (((i + q : ℕ) : ℤ), ((j + q : ℕ) : ℤ), A i j)).map
      fun t => (t.1, t.2.1)).Nodup := by
    refine nodup_keys_gridWrites _ _ _ ?_
    intro a b a' b' _ _ _ _ h1 h2
    have h1' : ((a + q : ℕ) : ℤ) = ((a' + q : ℕ) : ℤ) := h1
    have h2' : ((b + q : ℕ) : ℤ) = ((b' + q : ℕ) : ℤ) := h2
    have := Int.ofNat.inj h1'
    have := Int.ofNat.inj h2'
    omega
  refine ⟨n, hpad, ?_⟩
  intro u v
  by_cases hc : q ≤ u ∧ u < N + q ∧ q ≤ v ∧ v < N + q
  · rw [if_pos hc]
    refine applyWrites_get_of_mem _ _ _ _ _ hn hnodup
      ((((u - q) + q : ℕ) : ℤ), (((v - q) + q : ℕ) : ℤ), A (u - q) (v - q)) ?_ u v ?_ ?_
    · exact mem_gridWrites.mpr ⟨u - q, by omega, v - q, by omega, rfl⟩
    · show (u : ℤ) = ((u - q + q : ℕ) : ℤ)
      exact_mod_cast (by omega : u = u - q + q)
    · show (v : ℤ) = ((v - q + q : ℕ) : ℤ)
      exact_mod_cast (by omega : v = v - q + q)
  · rw [if_neg hc]
    refine applyWrites_get_of_not_mem _ _ _ _ _ hn u v ?_
    intro t ht hc2
    obtain ⟨i, hi, j, hj, rfl⟩ := mem_gridWrites.mp ht
    have e1 : (u : ℤ) = ((i + q : ℕ) : ℤ) := hc2.1
    have e2 : (v : ℤ) = ((j + q : ℕ) : ℤ) := hc2.2
    have e1' : u = i + q := by exact_mod_cast e1
    have e2' : v = j + q := by exact_mod_cast e2
    exact hc ⟨by omega, by omega, by omega, by omega⟩

/-- The spatial convolution on a square grid: it succeeds for an odd
kernel, and each in-range cell is the window sum against the zero-padded
grid. -/
theorem convolve_square (N p : ℕ) (A K : ℕ → ℕ → ℝ) :
    ∃ V, convolve N N (2 * p + 1) A K = some V ∧
      ∀ x y : ℕ, x < N → y < N →
        V x y = ∑ a ∈ Finset.range (2 * p + 1), ∑ b ∈ Finset.range (2 * p + 1),
          (if p ≤ x + a ∧ x + a < N + p ∧ p ≤ y + b ∧ y + b < N + p
            then A (x + a - p) (y + b - p) else 0) * K a b := by
  obtain ⟨n, hn, hnget⟩ := padMatrix_square N p A
  have hp : (2 * p + 1 - 1) / 2 = p := by omega
  refine ⟨fun x y => ∑ a ∈ Finset.range (2 * p + 1), ∑ b ∈ Finset.range (2 * p + 1),
    n (x + a) (y + b) * K a b, ?_, ?_⟩
  · unfold convolve
    simp only [hp, hn, Option.bind_eq_bind, Option.some_bind, if_pos rfl, if_true]
  · intro x y _ _
    refine Finset.sum_congr rfl fun a _ => Finset.sum_congr rfl fun b _ => ?_
    rw [hnget (x + a) (y + b)]

theorem wrapIdx_of_lt (N : ℕ) (t : ℤ) (h0 : 0 ≤ t) (h1 : t < N) :
    wrapIdx N t = t.toNat := by
  unfold wrapIdx
  rw [Int.emod_eq_of_lt h0 h1]

/-! ### Claim C2: spectral versus spatial potential -/

/-- Claim C2, amended: on a square `N × N` grid, for a symmetric odd-side
kernel of side `2p+1 ≤ N`, the spectral path
`RealPart(IFFT(ComplexMulElem(FFT(FFTShift(K)), FFT(A))))` and the spatial
path `convolve(A, K)` agree exactly (hence within any tolerance) at every
cell at distance at least `p` from every border.  At border cells the
spectral path wraps circularly while the spatial path zero-pads, and the
two can differ (see the counterexample theorem). -/
theorem spectral_spatial_agree_interior (N p : ℕ) (hN : 0 < N) (hkn : 2 * p + 1 ≤ N)
    (A K : ℕ → ℕ → ℝ)
    (hsym : ∀ a b : ℕ, a < 2 * p + 1 → b < 2 * p + 1 → K a b = K (2 * p - a) (2 * p - b))
    (x y : ℕ) (hx1 : p ≤ x) (hx2 : x + p < N) (hy1 : p ≤ y) (hy2 : y + p < N) :
    ∃ U V, spectralPath N N (2 * p + 1) K A = some U ∧
      convolve N N (2 * p + 1) A K = some V ∧ U x y = V x y := by
  obtain ⟨U, hU, hUval⟩ := spectralPath_eq_circular N p hN hkn K A
  obtain ⟨V, hV, hVval⟩ := convolve_square N p A K
  refine ⟨U, V, hU, hV, ?_⟩
  rw [hUval x y, hVval x y (by omega) (by omega)]
  rw [← Finset.sum_range_reflect]
  refine Finset.sum_congr rfl fun a ha => ?_
  rw [← Finset.sum_range_reflect]
  refine Finset.sum_congr rfl fun b hb => ?_
  rw [Finset.mem_range] at ha hb
  have ha1 : 2 * p + 1 - 1 - a = 2 * p - a := by omega
  have hb1 : 2 * p + 1 - 1 - b = 2 * p - b := by omega
  rw [ha1, hb1]
  have harg1 : (x : ℤ) - (((2 * p - a : ℕ) : ℤ) - (p : ℕ)) = ((x + a - p : ℕ) : ℤ) := by
    omega
  have harg2 : (y : ℤ) - (((2 * p - b : ℕ) : ℤ) - (p : ℕ)) = ((y + b - p : ℕ) : ℤ) := by
    omega
  rw [harg1, harg2, wrapIdx_of_lt N _ (Int.ofNat_nonneg _) (by exact_mod_cast (by omega : x + a - p < N)),
    wrapIdx_of_lt N _ (Int.ofNat_nonneg _) (by exact_mod_cast (by omega : y + b - p < N)),
    Int.toNat_natCast, Int.toNat_natCast]
  rw [if_pos (by omega : p ≤ x + a ∧ x + a < N + p ∧ p ≤ y + b ∧ y + b < N + p)]
  rw [← hsym a b ha hb]
  ring

/-- Claim C2, counterexample.  First part: on the 4×4 grid with a single
active cell at the origin and the uniform normalized 3×3 kernel, the
spectral and spatial paths differ by 1/9 at the border cell (3,3) — far
beyond any small numerical tolerance such as 1e-6 (the spectral path wraps
circularly, the spatial path zero-pads).  Second part: with the normalized
but asymmetric 3×3 kernel concentrated at offset (-1, 0), the two paths
differ even at the interior cell (1,2) of a 5×5 grid (the spatial path is
an unflipped correlation, the spectral path a true convolution), so the
claim also fails for non-symmetric kernels away from the border. -/
theorem spectral_spatial_differ_at_border :
    (∃ U V,
      spectralPath 4 4 3 (fun _ _ => (1 : ℝ) / 9)
        (fun i j => if i = 0 ∧ j = 0 then (1 : ℝ) else 0) = some U ∧
      convolve 4 4 3 (fun i j => if i = 0 ∧ j = 0 then (1 : ℝ) else 0)
        (fun _ _ => (1 : ℝ) / 9) = some V ∧
      U 3 3 = 1 / 9 ∧ V 3 3 = 0 ∧ ¬ |U 3 3 - V 3 3| ≤ 1 / 1000000) ∧
    (∃ U V,
      spectralPath 5 5 3 (fun a b => if a = 0 ∧ b = 1 then (1 : ℝ) else 0)
        (fun i j => if i = 2 ∧ j = 2 then (1 : ℝ) else 0) = some U ∧
      convolve 5 5 3 (fun i j => if i = 2 ∧ j = 2 then (1 : ℝ) else 0)
        (fun a b => if a = 0 ∧ b = 1 then (1 : ℝ) else 0) = some V ∧
      U 1 2 = 1 ∧ V 1 2 = 0) := by
  constructor
  · obtain ⟨U, hU, hUval⟩ := spectralPath_eq_circular 4 1 (by norm_num) (by norm_num)
      (fun _ _ => (1 : ℝ) / 9) (fun i j => if i = 0 ∧ j = 0 then (1 : ℝ) else 0)
    obtain ⟨V, hV, hVval⟩ := convolve_square 4 1
      (fun i j => if i = 0 ∧ j = 0 then (1 : ℝ) else 0) (fun _ _ => (1 : ℝ) / 9)
    have hU33 : U 3 3 = 1 / 9 := by
      rw [hUval 3 3]
      norm_num [Finset.sum_range_succ, wrapIdx]
    have hV33 : V 3 3 = 0 := by
      rw [hVval 3 3 (by norm_num) (by norm_num)]
      norm_num [Finset.sum_range_succ]
    refine ⟨U, V, hU, hV, hU33, hV33, ?_⟩
    rw [hU33, hV33, sub_zero, abs_of_pos (by norm_num : (0 : ℝ) < 1 / 9)]
    norm_num
  · obtain ⟨U, hU, hUval⟩ := spectralPath_eq_circular 5 1 (by norm_num) (by norm_num)
      (fun a b => if a = 0 ∧ b = 1 then (1 : ℝ) else 0)
      (fun i j => if i = 2 ∧ j = 2 then (1 : ℝ) else 0)
    obtain ⟨V, hV, hVval⟩ := convolve_square 5 1
      (fun i j => if i = 2 ∧ j = 2 then (1 : ℝ) else 0)
      (fun a b => if a = 0 ∧ b = 1 then (1 : ℝ) else 0)
    have hU12 : U 1 2 = 1 := by
      rw [hUval 1 2]
      norm_num [Finset.sum_range_succ, wrapIdx]
      rfl
    have hV12 : V 1 2 = 0 := by
      rw [hVval 1 2 (by norm_num) (by norm_num)]
      norm_num [Finset.sum_range_succ]
    exact ⟨U, V, hU, hV, hU12, hV12⟩

/-! ### Claim C7: the clip step and non-finite values -/

/-- Claim C7, counterexample: under IEEE-754 comparison semantics the
source `Clip` returns a NaN input unchanged (both guards compare false
against NaN), so a NaN is neither clamped into `[0, 1]` nor detected: it is
silently stored. -/
theorem clip_nan_propagates :
    ClipF FP.nan (FP.fin 0) (FP.fin 1) = FP.nan ∧ ¬ FP.inUnit FP.nan := by
  constructor
  · unfold ClipF
    simp [FP.lt]
  · simp [FP.inUnit]

/-- Claim C7, amended: for every non-NaN input, including `±Inf`, the value
stored after `Clip(·, 0, 1)` is a finite real in `[0, 1]`; a NaN input,
however, is returned unchanged rather than being clamped or raised. -/
theorem clip_clamps_non_nan (x : FP) (hx : x ≠ FP.nan) :
    FP.inUnit (ClipF x (FP.fin 0) (FP.fin 1)) := by
  cases x with
  | nan => exact absurd rfl hx
  | inf =>
    unfold ClipF
    simp only [FP.lt, if_false, if_true]
    norm_num [FP.inUnit]
  | ninf =>
    unfold ClipF
    simp only [FP.lt, if_true]
    norm_num [FP.inUnit]
  | fin v =>
    unfold ClipF
    simp only [FP.lt]
    by_cases h1 : v < 0
    · rw [if_pos h1]
      norm_num [FP.inUnit]
    · rw [if_neg h1]
      by_cases h2 : 1 < v
      · rw [if_pos h2]
        norm_num [FP.inUnit]
      · rw [if_neg h2]
        exact ⟨le_of_not_lt h1, le_of_not_lt h2⟩

/-- Claim C7 witness: the amended theorem applied at the non-NaN inputs
`+Inf` and the finite `2`. -/
theorem clip_clamps_non_nan_witness :
    FP.inUnit (ClipF FP.inf (FP.fin 0) (FP.fin 1)) ∧
    FP.inUnit (ClipF (FP.fin 2) (FP.fin 0) (FP.fin 1)) :=
  ⟨clip_clamps_non_nan FP.inf (fun h => FP.noConfusion h),
   clip_clamps_non_nan (FP.fin 2) (fun h => FP.noConfusion h)⟩

/-! ### Claim C9: elementwise complex multiplication -/

/-- Claim C9 (a code bug): `ComplexMulElem`'s inner loop runs `j < r`
instead of `j < c`.  On same-sized non-square inputs the claimed identity
`C[i,j] = A[i,j]*B[i,j]` fails: for 1×2 all-ones matrices the entry (0,1)
stays zero instead of 1, and for a 2×1 input the read `m1.At(1, 1)` panics
(embedded `none`). -/
theorem complexMulElem_not_elementwise_nonsquare :
    (∃ P, ComplexMulElem 1 2 (fun _ _ => 1) (fun _ _ => 1) = some P ∧
      P 0 0 = 1 ∧ P 0 1 = 0) ∧
    ComplexMulElem 2 1 (fun _ _ => 1) (fun _ _ => 1) = none := by
  constructor
  · refine ⟨_, by unfold ComplexMulElem; rw [if_pos (by norm_num)], ?_, ?_⟩
    · rw [if_pos ⟨by norm_num, by norm_num⟩]
      apply Complex.ext <;> simp
    · rw [if_neg (by norm_num)]
  · unfold ComplexMulElem
    rw [if_neg (by norm_num)]

/-! ### Claim C8: the circular shift on non-square grids -/

/-- Claim C8 (a code bug): `FFTShift` wraps the row index modulo the column
count (`mod(i, c)` where the source should use `mod(i, r)`).  On a 4×3
target with a 3×3 kernel, the kernel entry at offset (-1, 0) — which holds
`m.At(0, 1)`, here the value 2 — lands at row `(-1) mod 3 = 2` instead of
the claimed `(-1) mod 4 = 3`, row 3 staying zero; and on a 3×4 target the
row write `mod(-1, 4) = 3 ≥ 3` is out of range (a gonum panic, embedded
`none`). -/
theorem fftshift_wraps_rows_by_columns :
    (∃ s, FFTShift (fun i j => (3 * i + j + 1 : ℝ)) 3 4 3 = some s ∧
      s 2 0 = 2 ∧ s 3 0 = 0) ∧
    FFTShift (fun i j => (3 * i + j + 1 : ℝ)) 3 3 4 = none := by
  constructor
  · have hw : fftShiftWrites (fun i j => (3 * i + j + 1 : ℝ)) 3 3 =
        gridWrites 3 3 fun a b =>
          (goMod ((a : ℤ) - 1) 3, goMod ((b : ℤ) - 1) 3, (3 * a + b + 1 : ℝ)) := by
      unfold fftShiftWrites
      norm_num
    have hbounds : ∀ t ∈ fftShiftWrites (fun i j => (3 * i + j + 1 : ℝ)) 3 3,
        0 ≤ t.1 ∧ t.1 < (4 : ℤ) ∧ 0 ≤ t.2.1 ∧ t.2.1 < (3 : ℤ) := by
      rw [hw]
      intro t ht
      obtain ⟨a, ha, b, hb, rfl⟩ := mem_gridWrites.mp ht
      dsimp only
      have g1 := goMod_nonneg ((a : ℤ) - 1) 3 (by norm_num)
      have g2 := goMod_lt ((a : ℤ) - 1) 3 (by norm_num)
      have g3 := goMod_nonneg ((b : ℤ) - 1) 3 (by norm_num)
      have g4 := goMod_lt ((b : ℤ) - 1) 3 (by norm_num)
      push_cast at g1 g2 g3 g4
      exact ⟨g1, by omega, g3, by omega⟩
    obtain ⟨s, hs⟩ := applyWrites_total 4 3 _ (fun _ _ => 0) hbounds
    have hshift : FFTShift (fun i j => (3 * i + j + 1 : ℝ)) 3 4 3 = some s := by
      unfold FFTShift
      rw [if_neg (by norm_num)]
      exact hs
    have hnodup : ((fftShiftWrites (fun i j => (3 * i + j + 1 : ℝ)) 3 3).map
        fun t => (t.1, t.2.1)).Nodup := by
      rw [hw]
      refine nodup_keys_gridWrites _ _ _ ?_
      intro a b a' b' ha hb ha' hb' h1 h2
      have e1 : (a : ℤ) - 1 = (a' : ℤ) - 1 := by
        refine goMod_inj_of_small 3 (by norm_num) _ _ ?_ h1
        rw [show ((a : ℤ) - 1) - ((a' : ℤ) - 1) = (a : ℤ) - a' by ring, abs_lt]
        constructor <;> omega
      have e2 : (b : ℤ) - 1 = (b' : ℤ) - 1 := by
        refine goMod_inj_of_small 3 (by norm_num) _ _ ?_ h2
        rw [show ((b : ℤ) - 1) - ((b' : ℤ) - 1) = (b : ℤ) - b' by ring, abs_lt]
        constructor <;> omega
      constructor <;> omega
    refine ⟨s, hshift, ?_, ?_⟩
    · have hmem : ((2 : ℤ), (0 : ℤ), (2 : ℝ)) ∈
          fftShiftWrites (fun i j => (3 * i + j + 1 : ℝ)) 3 3 := by
        rw [hw]
        refine mem_gridWrites.mpr ⟨0, by norm_num, 1, by norm_num, ?_⟩
        have hm1 : goMod ((0 : ℤ) - 1) 3 = 2 := by
          rw [goMod_eq_emod _ _ (by norm_num)]
          decide
        have hm2 : goMod ((1 : ℤ) - 1) 3 = 0 := by
          rw [goMod_eq_emod _ _ (by norm_num)]
          decide
        rw [show ((0 : ℕ) : ℤ) - 1 = (0 : ℤ) - 1 by norm_num,
          show ((1 : ℕ) : ℤ) - 1 = (1 : ℤ) - 1 by norm_num, hm1, hm2]
        norm_num
      exact applyWrites_get_of_mem 4 3 _ _ s hs hnodup _ hmem 2 0 rfl rfl
    · refine applyWrites_get_of_not_mem 4 3 _ _ s hs 3 0 ?_
      rw [hw]
      intro t ht hc
      obtain ⟨a, ha, b, hb, rfl⟩ := mem_gridWrites.mp ht
      have g2 := goMod_lt ((a : ℤ) - 1) 3 (by norm_num)
      push_cast at g2
      have : (3 : ℤ) = goMod ((a : ℤ) - 1) 3 := hc.1
      omega
  · unfold FFTShift
    rw [if_neg (by norm_num)]
    refine applyWrites_none 3 4 _ _ ⟨(goMod ((0 : ℤ) - 1) 4, goMod ((0 : ℤ) - 1) 4,
      (3 * 0 + 0 + 1 : ℝ)), ?_, ?_⟩
    · unfold fftShiftWrites
      norm_num
      exact mem_gridWrites.mpr ⟨0, by norm_num, 0, by norm_num, by norm_num⟩
    · have hm : goMod ((0 : ℤ) - 1) 4 = 3 := by
        rw [goMod_eq_emod _ _ (by norm_num)]
        decide
      rw [hm]
      intro hcon
      omega

/-! ### Claim C5: the degenerate (zero-sum) kernel -/

theorem kernelShell_all_zero (Beta : List ℝ) (hB0 : ∀ x ∈ Beta, x = 0) (v : ℝ) :
    kernelShell Beta v = 0 := by
  unfold kernelShell
  split_ifs with h
  · rfl
  · rcases Nat.lt_or_ge (Int.floor v).toNat Beta.length with hlt | hge
    · rw [List.getD_eq_getElem Beta 0 hlt, hB0 _ (Beta.getElem_mem hlt), zero_mul]
    · rw [List.getD_eq_default Beta 0 hge, zero_mul]

theorem computeKernelRawM_all_zero (Rn : ℕ) (Dx : ℝ) (Beta : List ℝ)
    (hB0 : ∀ x ∈ Beta, x = 0) :
    ∃ KS, computeKernelRawM Rn Dx Beta = some KS ∧ (∀ a b : ℕ, KS a b = 0) ∧
      matSum (2 * Rn + 1) (2 * Rn + 1) KS = 0 := by
  obtain ⟨rm, hrm, _⟩ := getRadiusMatrix_spec Rn
  refine ⟨fun a b => kernelShell Beta ((Beta.length : ℝ) * Dx * rm a b), ?_, ?_, ?_⟩
  · unfold computeKernelRawM
    simp only [hrm, Option.bind_eq_bind, Option.some_bind]
  · intro a b
    exact kernelShell_all_zero Beta hB0 _
  · unfold matSum
    refine Finset.sum_eq_zero fun a _ => Finset.sum_eq_zero fun b _ => ?_
    exact kernelShell_all_zero Beta hB0 _

theorem kernelScaleFP_zero_zero : kernelScaleFP 0 0 = FP.nan := by
  have h1 : FP.div (FP.fin 1) (FP.fin 0) = FP.inf := by
    simp only [FP.div]
    norm_num
  unfold kernelScaleFP
  rw [h1]
  simp only [FP.mul]
  norm_num

/-- Claim C5, amended: when the β-weighted ring sum is zero (for example
with an all-zero Beta, where every raw kernel entry is zero), kernel
construction signals nothing: the source divides anyway, and under IEEE-754
semantics the scale factor is `1/0 = +Inf`, so every (zero) entry of the
normalized kernel becomes `0 * Inf = NaN` — a NaN kernel is produced
silently. -/
theorem kernel_zero_sum_scales_to_nan (Rn : ℕ) (Dx : ℝ) (Beta : List ℝ)
    (_hBne : Beta ≠ []) (hB0 : ∀ x ∈ Beta, x = 0) :
    ∃ KS, computeKernelRawM Rn Dx Beta = some KS ∧
      matSum (2 * Rn + 1) (2 * Rn + 1) KS = 0 ∧
      ∀ a b : ℕ, kernelScaleFP (matSum (2 * Rn + 1) (2 * Rn + 1) KS) (KS a b) = FP.nan := by
  obtain ⟨KS, hKS, hz, hsum⟩ := computeKernelRawM_all_zero Rn Dx Beta hB0
  refine ⟨KS, hKS, hsum, fun a b => ?_⟩
  rw [hsum, hz a b]
  exact kernelScaleFP_zero_zero

/-- Claim C5 witness: the amended theorem applied at `R = 1`, `Dx = 1`,
`Beta = [0]`. -/
theorem kernel_zero_sum_scales_to_nan_witness :
    ∃ KS, computeKernelRawM 1 1 [0] = some KS ∧
      matSum 3 3 KS = 0 ∧
      ∀ a b : ℕ, kernelScaleFP (matSum 3 3 KS) (KS a b) = FP.nan :=
  kernel_zero_sum_scales_to_nan 1 1 [0] (List.cons_ne_nil 0 [])
    (fun _ hx => List.mem_singleton.mp hx)

/-- Claim C5, counterexample: at `R = 1`, `Beta = [0]` on a 4×4 grid,
`ComputeKernel` succeeds — it signals no degenerate-kernel error although
the raw ring sum is zero — and the IEEE-754 model of its normalization step
turns the (0,0) entry into NaN. -/
theorem kernel_degenerate_error_never_signalled :
    (ComputeKernel 4 4 1 1 [0]).isSome = true ∧
    ∃ KS, computeKernelRawM 1 1 [0] = some KS ∧
      matSum 3 3 KS = 0 ∧
      kernelScaleFP (matSum 3 3 KS) (KS 0 0) = FP.nan := by
  have htr : trunc (1 : ℝ) = 1 := by
    unfold trunc
    rw [if_pos zero_le_one, Int.floor_one]
  obtain ⟨KS, hKS, hz, hsum⟩ := computeKernelRawM_all_zero 1 1 [0]
    (fun _ hx => List.mem_singleton.mp hx)
  constructor
  · obtain ⟨s, hs, _, _⟩ := FFTShift_square 4 1 (by norm_num) (by norm_num)
      (fun a b => 1 / matSum (2 * 1 + 1) (2 * 1 + 1) KS * KS a b)
    unfold ComputeKernel
    rw [htr]
    simp only [show ¬((1 : ℤ) < 0) by decide, if_false, Int.toNat_one, hKS,
      Option.bind_eq_bind, Option.some_bind, hs]
    rfl
  · exact ⟨KS, hKS, hsum, by rw [hsum, hz 0 0]; exact kernelScaleFP_zero_zero⟩

/-! ### Claim C1: the grid invariant under iterated updates -/

/-- Claim C1: for a valid configuration (R, T, Sigma positive, Beta
non-empty) whose grid cells all lie in `[0, 1]`, after any finite number of
`Update` steps that run to completion, every cell of the grid again lies in
`[0, 1]` — each step ends by clipping every cell into `[0, 1]`. -/
theorem grid_stays_in_unit_interval (c c' : Config) (n : ℕ)
    (hR : 0 < c.R) (hT : 0 < c.T) (hS : 0 < c.Sigma) (hB : c.Beta ≠ [])
    (h0 : ∀ i j : ℕ, c.A i j ∈ Set.Icc (0 : ℝ) 1)
    (hn : updateN n c = some c') :
    ∀ i j : ℕ, c'.A i j ∈ Set.Icc (0 : ℝ) 1 := by
  induction n generalizing c with
  | zero =>
    unfold updateN at hn
    injection hn with hn
    exact hn ▸ h0
  | succ n ih =>
    unfold updateN at hn
    simp only [Option.bind_eq_bind] at hn
    cases hu : Update c with
    | none =>
      rw [hu] at hn
      exact absurd hn (by simp)
    | some c1 =>
      rw [hu, Option.some_bind] at hn
      unfold Update at hu
      cases hP : ComplexMulElem c.h c.w c.KFFT (FFT c.h c.w c.A) with
      | none =>
        rw [hP] at hu
        exact absurd hu (by simp)
      | some P =>
        rw [hP] at hu
        simp only [Option.bind_eq_bind, Option.some_bind, Option.some.injEq] at hu
        subst hu
        refine ih _ ?_ ?_ ?_ ?_ ?_ hn
        · exact hR
        · exact hT
        · exact hS
        · exact hB
        · intro i j
          exact Clip_mem_Icc _ 0 1 zero_le_one

/-- Claim C1 witness: one completed update step from a concrete valid 1×1
configuration with an in-range grid. -/
theorem grid_stays_in_unit_interval_witness :
    ∃ c' : Config,
      updateN 1 { h := 1, w := 1, A := (fun _ _ => 0), Kernel := (fun _ _ => 0),
                  KFFT := (fun _ _ => 0), R := 1, T := 1, Mu := 0, Sigma := 1,
                  Dx := 1, Dt := 1, Beta := [1] } = some c' ∧
      ∀ i j : ℕ, c'.A i j ∈ Set.Icc (0 : ℝ) 1 := by
  obtain ⟨c1, hc1⟩ :
      ∃ c1, updateN 1 { h := 1, w := 1, A := (fun _ _ => 0), Kernel := (fun _ _ => 0),
                        KFFT := (fun _ _ => 0), R := 1, T := 1, Mu := 0, Sigma := 1,
                        Dx := 1, Dt := 1, Beta := [1] } = some c1 := ⟨_, rfl⟩
  refine ⟨c1, hc1, ?_⟩
  refine grid_stays_in_unit_interval _ c1 1 ?_ ?_ ?_ ?_ ?_ hc1
  · show (0 : ℝ) < 1
    norm_num
  · show (0 : ℝ) < 1
    norm_num
  · show (0 : ℝ) < 1
    norm_num
  · show [(1 : ℝ)] ≠ []
    exact List.cons_ne_nil 1 []
  · intro i j
    show (0 : ℝ) ∈ Set.Icc (0 : ℝ) 1
    exact ⟨le_refl 0, zero_le_one⟩

/-! ### Claim C4: the unnormalized kernel entry formula -/

theorem computeKernelRawM_spec (Rn : ℕ) (Dx : ℝ) (Beta : List ℝ) :
    ∃ KS, computeKernelRawM Rn Dx Beta = some KS ∧
      ∀ a b : ℕ, a < 2 * Rn + 1 → b < 2 * Rn + 1 →
        KS a b = kernelShell Beta ((Beta.length : ℝ) * Dx *
          Real.sqrt ((((a : ℤ) - Rn) * ((a : ℤ) - Rn) +
            ((b : ℤ) - Rn) * ((b : ℤ) - Rn) : ℤ) : ℝ)) := by
  obtain ⟨rm, hrm, hval⟩ := getRadiusMatrix_spec Rn
  refine ⟨fun a b => kernelShell Beta ((Beta.length : ℝ) * Dx * rm a b), ?_, ?_⟩
  · unfold computeKernelRawM
    simp only [hrm, Option.bind_eq_bind, Option.some_bind]
  · intro a b ha hb
    dsimp only
    rw [hval a b ha hb]

theorem trunc_of_pos (R : ℝ) (hR : 0 < R) : trunc R = ⌊R⌋ := by
  unfold trunc
  rw [if_pos hR.le]

/-- Claim C4: for `R > 0` and non-empty `Beta`, the radial-field entry at
position `(⌊R⌋+i, ⌊R⌋+j)` is `√(i²+j²)`, and the unnormalized kernel entry
there equals `Beta[⌊v⌋] * KernelCoreExp(v mod 1)` for the ring index
`v = √(i²+j²)·Dx·len(Beta)` when `v < len(Beta)`, and `0` otherwise. -/
theorem kernel_entry_formula (R Dx : ℝ) (Beta : List ℝ) (hR : 0 < R)
    (_hBne : Beta ≠ []) (i j : ℤ) (hi : |i| ≤ ⌊R⌋) (hj : |j| ≤ ⌊R⌋) :
    ∃ rm KS, getRadiusMatrix (trunc R).toNat = some rm ∧
      computeKernelRawM (trunc R).toNat Dx Beta = some KS ∧
      rm (⌊R⌋ + i).toNat (⌊R⌋ + j).toNat = Real.sqrt ((i * i + j * j : ℤ) : ℝ) ∧
      KS (⌊R⌋ + i).toNat (⌊R⌋ + j).toNat =
        (if Real.sqrt ((i * i + j * j : ℤ) : ℝ) * Dx * Beta.length < (Beta.length : ℝ)
         then Beta.getD (⌊Real.sqrt ((i * i + j * j : ℤ) : ℝ) * Dx * Beta.length⌋).toNat 0 *
           KernelCoreExp (goFMod (Real.sqrt ((i * i + j * j : ℤ) : ℝ) * Dx * Beta.length) 1)
         else 0) := by
  have htr : trunc R = ⌊R⌋ := trunc_of_pos R hR
  have hfl : 0 ≤ ⌊R⌋ := Int.floor_nonneg.mpr hR.le
  have hRn : ((trunc R).toNat : ℤ) = ⌊R⌋ := by
    rw [htr]
    exact Int.toNat_of_nonneg hfl
  have hia : ((⌊R⌋ + i).toNat : ℤ) = ⌊R⌋ + i := Int.toNat_of_nonneg (by
    rw [abs_le] at hi
    omega)
  have hja : ((⌊R⌋ + j).toNat : ℤ) = ⌊R⌋ + j := Int.toNat_of_nonneg (by
    rw [abs_le] at hj
    omega)
  have hlt1 : (⌊R⌋ + i).toNat < 2 * (trunc R).toNat + 1 := by
    rw [abs_le] at hi
    omega
  have hlt2 : (⌊R⌋ + j).toNat < 2 * (trunc R).toNat + 1 := by
    rw [abs_le] at hj
    omega
  obtain ⟨rm, hrm, hrmval⟩ := getRadiusMatrix_spec (trunc R).toNat
  obtain ⟨KS, hKS, hKSval⟩ := computeKernelRawM_spec (trunc R).toNat Dx Beta
  have hidx1 : (((⌊R⌋ + i).toNat : ℤ) - ((trunc R).toNat : ℤ)) = i := by
    rw [hia, hRn]
    ring
  have hidx2 : (((⌊R⌋ + j).toNat : ℤ) - ((trunc R).toNat : ℤ)) = j := by
    rw [hja, hRn]
    ring
  refine ⟨rm, KS, hrm, hKS, ?_, ?_⟩
  · rw [hrmval _ _ hlt1 hlt2, hidx1, hidx2]
  · rw [hKSval _ _ hlt1 hlt2, hidx1, hidx2]
    unfold kernelShell
    have hcomm : (Beta.length : ℝ) * Dx * Real.sqrt ((i * i + j * j : ℤ) : ℝ) =
        Real.sqrt ((i * i + j * j : ℤ) : ℝ) * Dx * Beta.length := by
      ring
    rw [hcomm]
    rcases lt_or_ge (Real.sqrt ((i * i + j * j : ℤ) : ℝ) * Dx * Beta.length)
      ((Beta.length : ℝ)) with hlt | hge
    · rw [if_neg (not_le.mpr hlt), if_pos hlt]
    · rw [if_pos hge, if_neg (not_lt.mpr hge)]

/-- Claim C4 witness: the entry formula applied at `R = 1`, `Dx = 1`,
`Beta = [1]`, offset `(0, 0)`. -/
theorem kernel_entry_formula_witness :
    ∃ rm KS, getRadiusMatrix (trunc 1).toNat = some rm ∧
      computeKernelRawM (trunc 1).toNat 1 [(1 : ℝ)] = some KS ∧
      rm (⌊(1 : ℝ)⌋ + 0).toNat (⌊(1 : ℝ)⌋ + 0).toNat =
        Real.sqrt (((0 : ℤ) * 0 + 0 * 0 : ℤ) : ℝ) ∧
      KS (⌊(1 : ℝ)⌋ + 0).toNat (⌊(1 : ℝ)⌋ + 0).toNat =
        (if Real.sqrt (((0 : ℤ) * 0 + 0 * 0 : ℤ) : ℝ) * 1 * ([(1 : ℝ)].length : ℝ) <
            (([(1 : ℝ)].length : ℕ) : ℝ)
         then [(1 : ℝ)].getD
            (⌊Real.sqrt (((0 : ℤ) * 0 + 0 * 0 : ℤ) : ℝ) * 1 * ([(1 : ℝ)].length : ℝ)⌋).toNat 0 *
           KernelCoreExp (goFMod (Real.sqrt (((0 : ℤ) * 0 + 0 * 0 : ℤ) : ℝ) * 1 *
             ([(1 : ℝ)].length : ℝ)) 1)
         else 0) := by
  refine kernel_entry_formula 1 1 [(1 : ℝ)] one_pos (List.cons_ne_nil 1 []) 0 0 ?_ ?_
  · rw [abs_zero, Int.floor_one]
    exact zero_le_one
  · rw [abs_zero, Int.floor_one]
    exact zero_le_one

/-! ### Claim C3: the normalized kernel sums to one -/

theorem KernelCoreExp_nonneg (r : ℝ) : 0 ≤ KernelCoreExp r := by
  unfold KernelCoreExp
  split_ifs
  · exact le_refl 0
  · exact (Real.exp_pos _).le

theorem kernelShell_nonneg (Beta : List ℝ) (hBpos : ∀ x ∈ Beta, 0 ≤ x) (v : ℝ) :
    0 ≤ kernelShell Beta v := by
  unfold kernelShell
  split_ifs
  · exact le_refl 0
  · refine mul_nonneg ?_ (KernelCoreExp_nonneg _)
    rcases Nat.lt_or_ge (Int.floor v).toNat Beta.length with hlt | hge
    · rw [List.getD_eq_getElem Beta 0 hlt]
      exact hBpos _ (Beta.getElem_mem hlt)
    · rw [List.getD_eq_default Beta 0 hge]

/-- Claim C3: for every `R > 0` and non-empty `Beta` whose raw
ring-weighted kernel sum is non-zero, the normalized kernel `K` returned by
`ComputeKernel` has entries summing exactly to 1. -/
theorem kernel_sums_to_one (h w : ℕ) (R Dx : ℝ) (Beta : List ℝ)
    (hR : 0 < R) (_hBne : Beta ≠ []) (KS K : ℕ → ℕ → ℝ) (KF : ℕ → ℕ → ℂ)
    (hKS : computeKernelRawM (trunc R).toNat Dx Beta = some KS)
    (hsum : matSum (2 * (trunc R).toNat + 1) (2 * (trunc R).toNat + 1) KS ≠ 0)
    (hCK : ComputeKernel h w R Dx Beta = some (K, KF)) :
    matSum (2 * (trunc R).toNat + 1) (2 * (trunc R).toNat + 1) K = 1 := by
  have htrn : ¬ trunc R < 0 := by
    rw [trunc_of_pos R hR]
    exact not_lt.mpr (Int.floor_nonneg.mpr hR.le)
  unfold ComputeKernel at hCK
  rw [if_neg htrn] at hCK
  simp only [hKS, Option.bind_eq_bind, Option.some_bind] at hCK
  set n := 2 * (trunc R).toNat + 1 with hn
  cases hFS : FFTShift (fun a b => 1 / matSum n n KS * KS a b) n h w with
  | none =>
    rw [hFS] at hCK
    exact absurd hCK (by simp)
  | some s =>
    rw [hFS, Option.some_bind, Option.some.injEq, Prod.mk.injEq] at hCK
    have hfac : ∀ c : ℝ, matSum n n (fun a b => c * KS a b) = c * matSum n n KS := by
      intro c
      unfold matSum
      rw [Finset.mul_sum]
      exact Finset.sum_congr rfl fun a _ => by rw [Finset.mul_sum]
    rw [← hCK.1, hfac, one_div, inv_mul_cancel₀ hsum]

theorem ComputeKernel_succeeds (N : ℕ) (R Dx : ℝ) (Beta : List ℝ)
    (hR : 0 < R) (hN : 0 < N) (hsz : 2 * (trunc R).toNat + 1 ≤ N)
    (KS : ℕ → ℕ → ℝ) (hKS : computeKernelRawM (trunc R).toNat Dx Beta = some KS) :
    ∃ KF, ComputeKernel N N R Dx Beta =
      some (fun a b => 1 / matSum (2 * (trunc R).toNat + 1) (2 * (trunc R).toNat + 1) KS *
        KS a b, KF) := by
  have htrn : ¬ trunc R < 0 := by
    rw [trunc_of_pos R hR]
    exact not_lt.mpr (Int.floor_nonneg.mpr hR.le)
  obtain ⟨s, hs, _, _⟩ := FFTShift_square N (trunc R).toNat hN hsz
    (fun a b => 1 / matSum (2 * (trunc R).toNat + 1) (2 * (trunc R).toNat + 1) KS * KS a b)
  refine ⟨FFT N N s, ?_⟩
  unfold ComputeKernel
  rw [if_neg htrn]
  simp only [hKS, Option.bind_eq_bind, Option.some_bind, hs]

/-- Claim C3 witness: the sum-to-one theorem applied at `R = 2`, `Dx = 1/2`,
`Beta = [1]` on an 8×8 grid; the raw sum is non-zero because the raw entry
at offset (0, 1) from the center evaluates to `KernelCoreExp(1/2) = 1` and
all entries are non-negative. -/
theorem kernel_sums_to_one_witness :
    ∃ KS K KF,
      computeKernelRawM (trunc 2).toNat (1 / 2) [(1 : ℝ)] = some KS ∧
      matSum (2 * (trunc 2).toNat + 1) (2 * (trunc 2).toNat + 1) KS ≠ 0 ∧
      ComputeKernel 8 8 2 (1 / 2) [(1 : ℝ)] = some (K, KF) ∧
      matSum (2 * (trunc 2).toNat + 1) (2 * (trunc 2).toNat + 1) K = 1 := by
  have htr : (trunc 2).toNat = 2 := by
    rw [trunc_of_pos 2 (by norm_num), show ⌊(2 : ℝ)⌋ = 2 by norm_num]
    rfl
  obtain ⟨KS, hKS, hKSval⟩ := computeKernelRawM_spec (trunc 2).toNat (1 / 2) [(1 : ℝ)]
  have hpos : ∀ a b : ℕ, a < 2 * (trunc 2).toNat + 1 → b < 2 * (trunc 2).toNat + 1 →
      0 ≤ KS a b := by
    intro a b ha hb
    rw [hKSval a b ha hb]
    refine kernelShell_nonneg _ ?_ _
    intro x hx
    rw [List.mem_singleton.mp hx]
    exact zero_le_one
  have hKS23 : KS 2 3 = 1 := by
    rw [htr] at hKSval
    rw [hKSval 2 3 (by norm_num) (by norm_num)]
    have hsq : ((((2 : ℕ) : ℤ) - (2 : ℕ)) * (((2 : ℕ) : ℤ) - (2 : ℕ)) +
        (((3 : ℕ) : ℤ) - (2 : ℕ)) * (((3 : ℕ) : ℤ) - (2 : ℕ)) : ℤ) = 1 := by
      norm_num
    rw [hsq]
    have harg : (([(1 : ℝ)].length : ℝ)) * (1 / 2) * Real.sqrt ((1 : ℤ) : ℝ) = 1 / 2 := by
      simp [Real.sqrt_one]
    rw [harg]
    unfold kernelShell
    rw [if_neg (by norm_num)]
    have hfl : (⌊(1 / 2 : ℝ)⌋).toNat = 0 := by norm_num
    rw [hfl]
    have hmod : goFMod (1 / 2) 1 = 1 / 2 := by
      unfold goFMod trunc
      rw [div_one, if_pos (by norm_num)]
      norm_num
    rw [hmod]
    have hcore : KernelCoreExp (1 / 2) = 1 := by
      unfold KernelCoreExp
      rw [if_neg (by norm_num)]
      rw [show (4 : ℝ) - 4 / (4 * (1 / 2) * (1 - 1 / 2)) = 0 by norm_num, Real.exp_zero]
    rw [hcore]
    simp [List.getD]
  have hrow : (1 : ℝ) ≤ ∑ b ∈ Finset.range (2 * (trunc 2).toNat + 1), KS 2 b := by
    have h3 : (3 : ℕ) ∈ Finset.range (2 * (trunc 2).toNat + 1) := by
      rw [htr]
      norm_num
    have := Finset.single_le_sum
      (fun b hb => hpos 2 b (by rw [htr]; norm_num) (Finset.mem_range.mp hb)) h3
    rw [hKS23] at this
    exact this
  have hsum : (1 : ℝ) ≤ matSum (2 * (trunc 2).toNat + 1) (2 * (trunc 2).toNat + 1) KS := by
    unfold matSum
    have h2 : (2 : ℕ) ∈ Finset.range (2 * (trunc 2).toNat + 1) := by
      rw [htr]
      norm_num
    have hrows : ∀ a ∈ Finset.range (2 * (trunc 2).toNat + 1),
        0 ≤ ∑ b ∈ Finset.range (2 * (trunc 2).toNat + 1), KS a b := by
      intro a ha
      exact Finset.sum_nonneg fun b hb =>
        hpos a b (Finset.mem_range.mp ha) (Finset.mem_range.mp hb)
    have := Finset.single_le_sum hrows h2
    exact le_trans hrow this
  have hne : matSum (2 * (trunc 2).toNat + 1) (2 * (trunc 2).toNat + 1) KS ≠ 0 := by
    intro h
    rw [h] at hsum
    linarith
  obtain ⟨KF, hCK⟩ := ComputeKernel_succeeds 8 2 (1 / 2) [(1 : ℝ)] (by norm_num)
    (by norm_num) (by rw [htr]; norm_num) KS hKS
  refine ⟨KS, _, KF, hKS, hne, hCK, ?_⟩
  exact kernel_sums_to_one 8 8 2 (1 / 2) [(1 : ℝ)] (by norm_num) (List.cons_ne_nil 1 [])
    KS _ KF hKS hne hCK

/-! ### The random initial state: loop lemmas -/

theorem randInt_spec (g : Rng) (s : RState) (mn mx : ℤ) (h : mn < mx) :
    ∃ v : ℤ, randInt g s mn mx = some (v, { s with ri := s.ri + 1 }) ∧
      mn ≤ v ∧ v < mx := by
  unfold randInt intn
  rw [if_neg (by omega : ¬ mx - mn ≤ 0)]
  refine ⟨(g.ints s.ri : ℤ) % (mx - mn) + mn, rfl, ?_, ?_⟩
  · have := Int.emod_nonneg ((g.ints s.ri : ℤ)) (by omega : mx - mn ≠ 0)
    omega
  · have := Int.emod_lt_of_pos ((g.ints s.ri : ℤ)) (by omega : 0 < mx - mn)
    omega

theorem randInt_empty (g : Rng) (s : RState) (mn mx : ℤ) (h : mx - mn ≤ 0) :
    randInt g s mn mx = none := by
  unfold randInt intn
  rw [if_pos h]
  rfl

theorem placePatch_total (N : ℕ) (hN : 100 ≤ N) (g : Rng)
    (hf : ∀ k, g.floats k ∈ Set.Ico (0 : ℝ) 1) (A : ℕ → ℕ → ℝ) (s : RState) :
    ∃ A' s', placePatch N N g A s = some (A', s') ∧
      ∀ i j : ℕ, A' i j = A i j ∨ A' i j ∈ Set.Ico (0 : ℝ) 1 := by
  have hNz : (100 : ℤ) ≤ (N : ℤ) := by exact_mod_cast hN
  obtain ⟨w1, h1, hw1l, hw1u⟩ := randInt_spec g s 20 50 (by norm_num)
  obtain ⟨w2, h2, hw2l, hw2u⟩ :=
    randInt_spec g { s with ri := s.ri + 1 } 20 50 (by norm_num)
  obtain ⟨x, h3, hxl, hxu⟩ :=
    randInt_spec g { s with ri := s.ri + 1 + 1 } w1 ((N : ℤ) - w1) (by omega)
  obtain ⟨y, h4, hyl, hyu⟩ :=
    randInt_spec g { s with ri := s.ri + 1 + 1 + 1 } w2 ((N : ℤ) - w2) (by omega)
  have hb : ∀ t ∈ rectWrites g { s with ri := s.ri + 1 + 1 + 1 + 1 } x y w1 w2,
      0 ≤ t.1 ∧ t.1 < (N : ℤ) ∧ 0 ≤ t.2.1 ∧ t.2.1 < (N : ℤ) := by
    intro t ht
    obtain ⟨a, ha, b, hbm, rfl⟩ := mem_gridWrites.mp (by exact ht)
    dsimp only
    have ha' : (a : ℤ) < 2 * w1 := by omega
    have hb' : (b : ℤ) < 2 * w2 := by omega
    refine ⟨by omega, by omega, by omega, by omega⟩
  obtain ⟨A', hA'⟩ := applyWrites_total N N _ A hb
  refine ⟨A', ⟨s.ri + 1 + 1 + 1 + 1, s.rf + (2 * w1).toNat * (2 * w2).toNat⟩, ?_, ?_⟩
  · unfold placePatch
    simp only [h1, Option.bind_eq_bind, Option.some_bind, h2, h3, h4, hA']
  · intro i j
    rcases applyWrites_old_or_written N N _ A A' hA' i j with hold | ⟨t, ht, hv⟩
    · exact Or.inl hold
    · obtain ⟨a, _, b, _, rfl⟩ := mem_gridWrites.mp ht
      exact Or.inr (hv ▸ hf _)

theorem patchLoop_total (N : ℕ) (hN : 100 ≤ N) (g : Rng)
    (hf : ∀ k, g.floats k ∈ Set.Ico (0 : ℝ) 1) :
    ∀ fuel : ℕ, ∀ k : ℤ, ∀ A : ℕ → ℕ → ℝ, ∀ s : RState,
      (N : ℤ) / 30 + 1 - k ≤ fuel → 0 ≤ k → k ≤ (N : ℤ) / 30 →
      ∃ A' s', patchLoop N N g fuel k A s = some (A', s') ∧
        ∀ i j : ℕ, A' i j = A i j ∨ A' i j ∈ Set.Ico (0 : ℝ) 1 := by
  have hdivlt : (N : ℤ) / 50 < (N : ℤ) / 30 := by
    have e1 : ((N / 50 : ℕ) : ℤ) = (N : ℤ) / 50 := Int.natCast_div N 50
    have e2 : ((N / 30 : ℕ) : ℤ) = (N : ℤ) / 30 := Int.natCast_div N 30
    have : N / 50 < N / 30 := by omega
    omega
  intro fuel
  induction fuel with
  | zero =>
    intro k A s hfuel hk0 hkb
    omega
  | succ fuel ih =>
    intro k A s hfuel hk0 hkb
    obtain ⟨cnt, hdraw, hcl, hcu⟩ := randInt_spec g s ((N : ℤ) / 50) ((N : ℤ) / 30) hdivlt
    by_cases hk : k < cnt
    · obtain ⟨A1, s1, hpp, hval1⟩ := placePatch_total N hN g hf A { s with ri := s.ri + 1 }
      obtain ⟨A2, s2, hloop, hval2⟩ := ih (k + 1) A1 s1 (by omega) (by omega) (by omega)
      refine ⟨A2, s2, ?_, ?_⟩
      · unfold patchLoop
        simp only [hdraw, Option.bind_eq_bind, Option.some_bind, if_pos hk, hpp, hloop]
      · intro i j
        rcases hval2 i j with h | h
        · rw [h]
          exact hval1 i j
        · exact Or.inr h
    · refine ⟨A, { s with ri := s.ri + 1 }, ?_, fun i j => Or.inl rfl⟩
      unfold patchLoop
      simp only [hdraw, Option.bind_eq_bind, Option.some_bind, if_neg hk]

theorem initState_no_patches (h w : ℕ) (A : ℕ → ℕ → ℝ) (g : Rng) (s : RState)
    (h50 : (w : ℤ) / 50 = 0) (h30 : (w : ℤ) / 30 = 1) :
    InitState h w A g s = some (A, { s with ri := s.ri + 1 }) := by
  have hw30 : w / 30 = 1 := by
    have e2 : ((w / 30 : ℕ) : ℤ) = (w : ℤ) / 30 := Int.natCast_div w 30
    omega
  unfold InitState
  rw [hw30]
  unfold patchLoop
  obtain ⟨cnt, hdraw, hcl, hcu⟩ := randInt_spec g s ((w : ℤ) / 50) ((w : ℤ) / 30)
    (by omega)
  simp only [hdraw, Option.bind_eq_bind, Option.some_bind,
    if_neg (by omega : ¬ (0 : ℤ) < cnt)]

theorem initState_narrow_none (h w : ℕ) (A : ℕ → ℕ → ℝ) (g : Rng) (s : RState)
    (hw : w < 30) :
    InitState h w A g s = none := by
  have hw30 : w / 30 = 0 := Nat.div_eq_of_lt hw
  have h50 : (w : ℤ) / 50 = 0 := by
    have : w / 50 = 0 := Nat.div_eq_of_lt (by omega)
    have e : ((w / 50 : ℕ) : ℤ) = (w : ℤ) / 50 := Int.natCast_div w 50
    omega
  have h30 : (w : ℤ) / 30 = 0 := by
    have e : ((w / 30 : ℕ) : ℤ) = (w : ℤ) / 30 := Int.natCast_div w 30
    omega
  unfold InitState
  rw [hw30]
  unfold patchLoop
  rw [randInt_empty g s _ _ (by omega)]
  rfl

theorem newConfig_30_total (T Mu Sigma : ℝ) (g : Rng) (s : RState) :
    ∃ c : Config, NewConfig 30 30 2 T Mu Sigma [(1 : ℝ)] g s = some c := by
  have htr : (trunc 2).toNat = 2 := by
    rw [trunc_of_pos 2 (by norm_num), show ⌊(2 : ℝ)⌋ = 2 by norm_num]
    rfl
  obtain ⟨KS, hKS, _⟩ := computeKernelRawM_spec (trunc 2).toNat (1 / 2) [(1 : ℝ)]
  obtain ⟨KF, hCK⟩ := ComputeKernel_succeeds 30 2 (1 / 2) [(1 : ℝ)] (by norm_num)
    (by norm_num) (by rw [htr]; norm_num) KS hKS
  have hIS := initState_no_patches 30 30 (fun _ _ => (0 : ℝ)) g s (by norm_num) (by norm_num)
  unfold NewConfig
  simp only [hCK, Option.bind_eq_bind, Option.some_bind, hIS]
  exact ⟨_, rfl⟩

/-! ### Claim C6: parameter validation at construction -/

/-- Claim C6, counterexample: `NewConfig` performs no parameter validation.
With `T = -1` and `Sigma = -1` — both invalid per the claim — construction
succeeds and returns a configuration; no InvalidParameter error exists
anywhere in the construction path. -/
theorem newConfig_accepts_invalid_params :
    ∃ c : Config, NewConfig 30 30 2 (-1) (23 / 100) (-1) [(1 : ℝ)]
      { ints := fun _ => 0, floats := fun _ => 0 } { ri := 0, rf := 0 } = some c :=
  newConfig_30_total (-1) (23 / 100) (-1) _ _

/-- Claim C6, amended: `NewConfig` validates nothing: for every `T`, `Mu`
and `Sigma` — in particular non-positive `T` and `Sigma` — and every random
stream, construction on a 30×30 grid with `R = 2`, `Beta = [1]` succeeds;
the parameters are stored as given, and no error value is ever produced.
(Invalid `R ≤ -1` aborts with a gonum panic in `mat.NewDense`, not with an
InvalidParameter error.) -/
theorem newConfig_no_validation (T Mu Sigma : ℝ) (g : Rng) (s : RState) :
    ∃ c : Config, NewConfig 30 30 2 T Mu Sigma [(1 : ℝ)] g s = some c :=
  newConfig_30_total T Mu Sigma g s

/-! ### Claim C10: totality of the patchy initial state -/

/-- Claim C10, amended: the patchy initial-state generator is total on
square grids of side at least 100 — every patch write lands in bounds and
every written value lies in `[0, 1)` — while for every grid of width less
than 30 the patch-count draw `randInt(w/50, w/30)` has an empty range
(`max - min ≤ 0`) and panics for every random stream.  (For widths 30-40
the drawn patch count is always zero, so `InitState` succeeds without
writing; the claim's "width or height at most 40 panics" is refuted by the
40×40 counterexample.) -/
theorem initState_total_large_and_panics_narrow :
    (∀ N : ℕ, 100 ≤ N → ∀ g : Rng, (∀ k, g.floats k ∈ Set.Ico (0 : ℝ) 1) →
      ∀ (A : ℕ → ℕ → ℝ) (s : RState), ∃ A' s', InitState N N A g s = some (A', s') ∧
        ∀ i j : ℕ, A' i j = A i j ∨ A' i j ∈ Set.Ico (0 : ℝ) 1) ∧
    (∀ (h w : ℕ) (A : ℕ → ℕ → ℝ) (g : Rng) (s : RState), w < 30 →
      InitState h w A g s = none) := by
  constructor
  · intro N hN g hf A s
    have e2 : ((N / 30 : ℕ) : ℤ) = (N : ℤ) / 30 := Int.natCast_div N 30
    exact patchLoop_total N hN g hf (N / 30 + 1) 0 A s (by omega) (by omega) (by omega)
  · intro h w A g s hw
    exact initState_narrow_none h w A g s hw

/-- Claim C10, counterexample: on a 40×40 grid (width at most 40) the patch
count draw is `randInt(0, 1) = 0`, so `InitState` returns successfully
without any panic — refuting the claim that every grid with width or
height at most 40 panics. -/
theorem initState_40_no_panic :
    InitState 40 40 (fun _ _ => (0 : ℝ)) { ints := fun _ => 0, floats := fun _ => 0 }
      { ri := 0, rf := 0 } =
      some ((fun _ _ => (0 : ℝ)), { ri := 1, rf := 0 }) := by
  have h := initState_no_patches 40 40 (fun _ _ => (0 : ℝ))
    { ints := fun _ => 0, floats := fun _ => 0 } { ri := 0, rf := 0 }
    (by norm_num) (by norm_num)
  exact h

/-- Claim C2 witness: the interior-agreement theorem applied on the 4×4
grid with the uniform (symmetric) 3×3 kernel, the zero grid and the
interior cell (1,1). -/
theorem spectral_spatial_agree_interior_witness :
    ∃ U V, spectralPath 4 4 (2 * 1 + 1) (fun _ _ => (1 : ℝ) / 9)
        (fun _ _ => (0 : ℝ)) = some U ∧
      convolve 4 4 (2 * 1 + 1) (fun _ _ => (0 : ℝ)) (fun _ _ => (1 : ℝ) / 9) = some V ∧
      U 1 1 = V 1 1 :=
  spectral_spatial_agree_interior 4 1 (by norm_num) (by norm_num) (fun _ _ => (0 : ℝ))
    (fun _ _ => (1 : ℝ) / 9) (fun _ _ _ _ => rfl) 1 1 (by norm_num) (by norm_num)
    (by norm_num) (by norm_num)

end

end Lenia
